import Mathlib

/-!
Formal model of the Astrobot v2 runtime (host IPC watcher, container
lifecycle manager, in-container agent loop, orchestrator delegation,
concurrency queue), shallowly embedded from the TypeScript sources:

* `src/ipc.ts`                          — host IPC watcher (`processIpcFiles`, `moveToErrors`,
                                          `processTaskIpc`)
* `src/container-runner.ts`             — container lifecycle (`runContainerAgent`,
                                          `sendIpcMessage`)
* `src/mcp-registry.ts`                 — `AgentQueue`
* `src/orchestrator.ts`                 — `handleMessage`, `handleDelegation`
* `src/agent-snapshot.ts`               — `writeAgentsSnapshot`
* `container/agent-runner/src/index.ts` — in-container loop (`writeOutput`,
                                          `drainIpcInput`, `runAgentLoop`)

Pure functions are translated to Lean functions; effectful code is
translated to explicit state passing over small state types, with the
filesystem, Docker, LLM backend and database abstracted as explicit
inputs.  JavaScript strings are modelled as `String` / `List Char`;
JS `undefined` / `null` of an optional field as `Option`.
-/

namespace Astrobot

/-! ## IPC file consumption (src/ipc.ts, lines 62–135)

The watcher's per-file pipeline is, in order (ipc.ts lines 73–84 for
`messages`, 98–107 for `tasks`):

1. `JSON.parse(fs.readFileSync(filePath))` — may throw (malformed JSON);
2. `fs.unlinkSync(filePath)` — deletes the file;
3. `await handleIpcMessage(data)` / `await processTaskIpc(data, agentDir)` — may throw;
4. on any throw, the `catch` block calls `moveToErrors(...)`.

`moveToErrors` (lines 122–135) does `fs.renameSync(filePath, errorDir/...)`
inside a `try { } catch { /* ignore */ }`: the rename succeeds only if the
file still exists at `filePath`; if it was already unlinked the rename
throws `ENOENT`, which is swallowed, leaving the file gone.
-/

/-- Location of one IPC file in the modelled filesystem. -/
inductive FileLoc where
  | present      -- still sitting in its IPC directory
  | gone         -- unlinked
  | quarantined  -- renamed into the `errors` directory
deriving DecidableEq, Repr

/-- Model of `moveToErrors` (ipc.ts lines 122–135): `fs.renameSync` moves the
file when it still exists; when it does not, the rename throws and the
surrounding `catch` ignores the error, leaving the location unchanged. -/
def moveToErrors : FileLoc → FileLoc
  | FileLoc.present => FileLoc.quarantined
  | l => l

/-- One iteration of the watcher's per-file loop (ipc.ts lines 73–84):
`parseOk` tells whether `JSON.parse` succeeds on the file's bytes, `handleOk`
whether the handler promise resolves.  Returns the file's final location and
whether its handler ran to completion.  Note the unlink sits *between* the
parse and the handler call in the source. -/
def processIpcFile (parseOk handleOk : Bool) : FileLoc × Bool :=
  if parseOk then
    -- JSON.parse succeeded, so fs.unlinkSync(filePath) runs next
    let loc := FileLoc.gone
    if handleOk then (loc, true)
    else (moveToErrors loc, false)   -- handler threw, after the unlink
  else
    -- JSON.parse threw, before the unlink; catch → moveToErrors
    (moveToErrors FileLoc.present, false)

/-- One file of a poll-tick batch: its name and the outcome of the two
fallible stages of its pipeline. -/
structure IpcFile where
  name : String
  parseOk : Bool
  handleOk : Bool
deriving DecidableEq, Repr

/-- Model of the JS `f.endsWith('.json')` filter. -/
def endsWithJson (s : String) : Bool := ".json".data.isSuffixOf s.data

/-- One directory's worth of files handled in one poll tick (ipc.ts lines
69–85): list the directory, keep the `.json` files, and run the per-file
pipeline on each, in listing order.  Each iteration is wrapped in its own
`try`/`catch`, so a throw on one file never stops the loop: the batch is a
total map over the filtered listing. -/
def processIpcBatch (files : List IpcFile) : List (String × FileLoc × Bool) :=
  (files.filter (fun f => endsWithJson f.name)).map
    (fun f => (f.name, processIpcFile f.parseOk f.handleOk))

/-! ## IPC processing order (C7)

Host side (ipc.ts lines 69–73): `fs.readdirSync(messagesDir).filter(f =>
f.endsWith('.json'))` — the listing is used in the order `readdirSync`
returns it, with no sort.  Container side
(container/agent-runner/src/index.ts lines 111–113):
`fs.readdirSync(IPC_INPUT_DIR).filter(f => f.endsWith('.json')).sort()` —
sorted with JS default string comparison (lexicographic by code unit).
`readdirSync` returns names in directory order, which is not guaranteed to
be sorted, so the listing is an arbitrary permutation here. -/

/-- Lexicographic comparison of char lists (JS default `Array.sort` string
comparison; the filenames involved are ASCII, where code-unit order and
code-point order agree). -/
def lexLe : List Char → List Char → Bool
  | [], _ => true
  | _ :: _, [] => false
  | a :: as, b :: bs => if a = b then lexLe as bs else decide (a < b)

/-- Lexicographic order on strings. -/
def strLexLe (a b : String) : Bool := lexLe a.data b.data

/-- Insert into a lexicographically sorted list. -/
def insertLex (s : String) : List String → List String
  | [] => [s]
  | t :: ts => if strLexLe s t then s :: t :: ts else t :: insertLex s ts

/-- Sorting a list of names lexicographically (models the observable result
of the JS `.sort()` call). -/
def sortLex : List String → List String
  | [] => []
  | s :: ss => insertLex s (sortLex ss)

/-- Order in which the host watcher processes the files of one directory in
one poll tick (ipc.ts lines 69–73): the `readdirSync` listing, filtered to
`.json` files, in listing order (no sort in the source). -/
def hostProcessOrder (listing : List String) : List String :=
  listing.filter endsWithJson

/-- Order in which the in-container drain processes the input files in one
poll (agent-runner index.ts lines 111–116): filter to `.json`, then
`.sort()`. -/
def drainProcessOrder (listing : List String) : List String :=
  sortLex (listing.filter endsWithJson)

/-- Boolean check that a list of names is lexicographically sorted. -/
def isSortedLex : List String → Bool
  | [] => true
  | [_] => true
  | a :: b :: rest => strLexLe a b && isSortedLex (b :: rest)

/-! ## AgentQueue (src/mcp-registry.ts, lines 295–361)

The queue holds `activeCount` (modelled as the length of the list of
running tasks' tokens), a FIFO `pendingTasks` and a `shuttingDown` flag.
The host is single-threaded, so `enqueue`, the synchronous prefix of
`runTask` (the `activeCount++`) and the `finally` block
(`activeCount--; drainPending()`) are atomic steps.  Each enqueue event
carries a unique token `tok` (identifying that submission) together with
the JS-level `taskId` string used by the double-submission guard. -/

/-- One `(id, fn)` pair handed to `enqueue`.  `tok` identifies the
submission event; `id` is the `taskId` string the guard compares. -/
structure QTask where
  tok : Nat
  id : String
deriving DecidableEq, Repr

/-- Queue state.  `started` is the log, in order, of `runTask` invocations
(each entry the token of the task that began running); `dropped` the log of
submissions discarded by the already-pending guard or the shutdown flag. -/
structure QState where
  active : List Nat
  pending : List QTask
  shuttingDown : Bool
  started : List Nat
  dropped : List Nat
deriving DecidableEq, Repr

/-- The initial queue state (a fresh `AgentQueue`). -/
def qInit : QState :=
  { active := [], pending := [], shuttingDown := false, started := [], dropped := [] }

/-- The synchronous prefix of `runTask` (mcp-registry.ts lines 325–330):
`activeCount++` and the task's function starts executing. -/
def startTask (s : QState) (t : QTask) : QState :=
  { s with active := s.active ++ [t.tok], started := s.started ++ [t.tok] }

/-- Model of `enqueue(taskId, fn)` (mcp-registry.ts lines 304–323):
shutdown guard, already-pending guard, then run-or-queue on capacity. -/
def enqueue (limit : Nat) (s : QState) (t : QTask) : QState :=
  if s.shuttingDown then { s with dropped := s.dropped ++ [t.tok] }
  else if s.pending.any (fun p => p.id = t.id) then
    { s with dropped := s.dropped ++ [t.tok] }
  else if limit ≤ s.active.length then
    { s with pending := s.pending ++ [t] }
  else startTask s t

/-- Model of the `while` loop of `drainPending` (mcp-registry.ts lines
342–352), with explicit fuel: while there is capacity and a pending task,
shift the front of the queue and run it.  Each iteration shortens the
pending queue, so a fuel of `s.pending.length` always suffices. -/
def drainPendingFuel (limit : Nat) : Nat → QState → QState
  | 0, s => s
  | fuel + 1, s =>
    match s.pending with
    | [] => s
    | t :: rest =>
      if s.active.length < limit then
        drainPendingFuel limit fuel (startTask { s with pending := rest } t)
      else s

/-- `drainPending` (mcp-registry.ts lines 342–352) run to completion.  The
shutdown guard at the top of the source function is checked by the caller
(`qComplete`). -/
def drainPending (limit : Nat) (s : QState) : QState :=
  drainPendingFuel limit s.pending.length s

/-- The `finally` block of `runTask` (mcp-registry.ts lines 336–339) for the
task with token `tok`: `activeCount--`, then `drainPending()` (which returns
immediately when shutting down). -/
def qComplete (limit : Nat) (s : QState) (tok : Nat) : QState :=
  let s' := { s with active := s.active.erase tok }
  if s'.shuttingDown then s' else drainPending limit s'

/-- Events observable at the queue boundary. -/
inductive QEvent where
  | enq (t : QTask)     -- a call to enqueue
  | fin (tok : Nat)     -- the promise of a running task settles
  | shutdown            -- shutdown(gracePeriodMs) flips the flag
deriving DecidableEq, Repr

/-- One event step. -/
def qStep (limit : Nat) (s : QState) : QEvent → QState
  | QEvent.enq t => enqueue limit s t
  | QEvent.fin tok => qComplete limit s tok
  | QEvent.shutdown => { s with shuttingDown := true }

/-- Run a trace of events from a state. -/
def qRun (limit : Nat) (s : QState) (events : List QEvent) : QState :=
  events.foldl (qStep limit) s

/-- All tokens a state has ever seen (started, dropped, or parked in the
pending queue). -/
def qSeen (s : QState) : List Nat :=
  s.started ++ s.dropped ++ s.pending.map QTask.tok

/-- Well-formedness of a trace from a state: each enqueue carries a token
never seen before, and each completion belongs to a running task. -/
def wfTrace (limit : Nat) : QState → List QEvent → Bool
  | _, [] => true
  | s, QEvent.enq t :: es =>
    !decide (t.tok ∈ qSeen s) && wfTrace limit (qStep limit s (QEvent.enq t)) es
  | s, QEvent.fin tok :: es =>
    decide (tok ∈ s.active) && wfTrace limit (qStep limit s (QEvent.fin tok)) es
  | s, QEvent.shutdown :: es => wfTrace limit (qStep limit s QEvent.shutdown) es

/-- The tokens submitted by the enqueue events of a trace. -/
def enqToks : List QEvent → List Nat
  | [] => []
  | QEvent.enq t :: es => t.tok :: enqToks es
  | _ :: es => enqToks es

/-! ## ContainerOutput and the stdout wire protocol

`ContainerOutput` (src/types.ts lines 51–56 and identically
container/agent-runner/src/index.ts lines 49–54) is
`{status: 'success'|'error', result: string|null, conversationId?, error?}`.
`writeOutput` (agent-runner index.ts lines 71–75) prints the start marker,
`JSON.stringify(output)`, and the end marker, each via `console.log` (so
each followed by a newline).  All `writeOutput` call sites build the object
with keys in the order `status`, `result`, `conversationId?`, `error?`, and
`JSON.stringify` omits `undefined` members, which fixes the emitted JSON
shape modelled by `serializeOutput`. -/

/-- The `status` discriminator of a ContainerOutput. -/
inductive OutStatus where
  | success
  | error
deriving DecidableEq, Repr

/-- The `ContainerOutput` record; `none` models an absent/undefined (or for
`result`, null) field. -/
structure ContainerOutput where
  status : OutStatus
  result : Option String
  conversationId : Option String := none
  error : Option String := none
deriving DecidableEq, Repr

/-- `OUTPUT_START_MARKER` (agent-runner index.ts line 68, container-runner.ts
line 26). -/
def startMarker : List Char := "---ASTROBOT_OUTPUT_START---".data

/-- `OUTPUT_END_MARKER` (agent-runner index.ts line 69, container-runner.ts
line 27). -/
def endMarker : List Char := "---ASTROBOT_OUTPUT_END---".data

/-- Hex digit character, lowercase, as produced by `JSON.stringify`'s
`\u00XX` escapes. -/
def hexDigit (n : Nat) : Char :=
  if n < 10 then Char.ofNat (48 + n) else Char.ofNat (87 + n)

/-- Escaping of one character inside a JSON string literal, as
`JSON.stringify` does it: quote, backslash and the named control escapes,
`\u00XX` for the remaining control characters, everything else verbatim. -/
def escChar (c : Char) : List Char :=
  if c = '"' then ['\\', '"']
  else if c = '\\' then ['\\', '\\']
  else if c = '\x08' then ['\\', 'b']
  else if c = '\t' then ['\\', 't']
  else if c = '\n' then ['\\', 'n']
  else if c = '\x0c' then ['\\', 'f']
  else if c = '\x0d' then ['\\', 'r']
  else if c.toNat < 32 then
    ['\\', 'u', '0', '0', hexDigit (c.toNat / 16), hexDigit (c.toNat % 16)]
  else [c]

/-- Escape a whole string body. -/
def escString : List Char → List Char
  | [] => []
  | c :: cs => escChar c ++ escString cs

/-- A JSON string literal (quotes included). -/
def jsonString (s : String) : List Char := '"' :: (escString s.data ++ ['"'])

/-- Text of the status discriminator. -/
def statusText : OutStatus → String
  | OutStatus.success => "success"
  | OutStatus.error => "error"

/-- `JSON.stringify(output)` for the ContainerOutput objects built at the
`writeOutput` call sites (keys in order `status`, `result`,
`conversationId?`, `error?`; `undefined` members omitted). -/
def serializeOutput (v : ContainerOutput) : List Char :=
  "\x7b\"status\":".data ++ jsonString (statusText v.status) ++
  ",\"result\":".data ++
    (match v.result with
     | none => "null".data
     | some r => jsonString r) ++
  (match v.conversationId with
   | none => []
   | some c => ",\"conversationId\":".data ++ jsonString c) ++
  (match v.error with
   | none => []
   | some e => ",\"error\":".data ++ jsonString e) ++
  "\x7d".data

/-- A single newline, as emitted by `console.log`. -/
def nlc : List Char := ['\n']

/-- The bytes `writeOutput(v)` puts on stdout (agent-runner index.ts lines
71–75): start marker, JSON, end marker, newline-separated. -/
def wireOutput (v : ContainerOutput) : List Char :=
  startMarker ++ nlc ++ serializeOutput v ++ nlc ++ endMarker ++ nlc

/-! ### JSON.parse, specialized to the ContainerOutput wire shape

The host does `JSON.parse(jsonStr)` and casts the result
(container-runner.ts line 251).  We model the parse specialized to the
exact object shape `serializeOutput` emits; on any other input it returns
`none` (a parse failure).  The claims settled against this model only ever
apply it to `serializeOutput` images and to truncated fragments of them, on
which this specialization and `JSON.parse` agree. -/

/-- Hex digit value of a character, if any. -/
def unhex? (c : Char) : Option Nat :=
  if 48 ≤ c.toNat ∧ c.toNat ≤ 57 then some (c.toNat - 48)
  else if 97 ≤ c.toNat ∧ c.toNat ≤ 102 then some (c.toNat - 87)
  else if 65 ≤ c.toNat ∧ c.toNat ≤ 70 then some (c.toNat - 55)
  else none

/-- Parse the body of a JSON string literal (the opening quote already
consumed): returns the decoded characters and the input after the closing
quote. -/
def parseStringBody : List Char → Option (List Char × List Char)
  | [] => none
  | c :: rest =>
    if c = '"' then some ([], rest)
    else if c = '\\' then
      match rest with
      | [] => none
      | e :: rest' =>
        if e = '"' then (parseStringBody rest').map (fun p => ('"' :: p.1, p.2))
        else if e = '\\' then (parseStringBody rest').map (fun p => ('\\' :: p.1, p.2))
        else if e = '/' then (parseStringBody rest').map (fun p => ('/' :: p.1, p.2))
        else if e = 'b' then (parseStringBody rest').map (fun p => ('\x08' :: p.1, p.2))
        else if e = 'f' then (parseStringBody rest').map (fun p => ('\x0c' :: p.1, p.2))
        else if e = 'n' then (parseStringBody rest').map (fun p => ('\n' :: p.1, p.2))
        else if e = 'r' then (parseStringBody rest').map (fun p => ('\x0d' :: p.1, p.2))
        else if e = 't' then (parseStringBody rest').map (fun p => ('\t' :: p.1, p.2))
        else if e = 'u' then
          match rest' with
          | a :: b :: c2 :: d :: rest2 =>
            match unhex? a, unhex? b, unhex? c2, unhex? d with
            | some ha, some hb, some hc, some hd =>
              (parseStringBody rest2).map
                (fun p => (Char.ofNat (((ha * 16 + hb) * 16 + hc) * 16 + hd) :: p.1, p.2))
            | _, _, _, _ => none
          | _ => none
        else none
    else (parseStringBody rest).map (fun p => (c :: p.1, p.2))

/-- Parse a JSON string literal including its opening quote. -/
def parseStringLit (s : List Char) : Option (List Char × List Char) :=
  match s with
  | c :: rest => if c = '"' then parseStringBody rest else none
  | [] => none

/-- Consume an expected literal prefix. -/
def expectPrefix (pre s : List Char) : Option (List Char) :=
  if pre.isPrefixOf s then some (s.drop pre.length) else none

/-- Parse of one marker payload: `JSON.parse` specialized to the shape
`serializeOutput` emits (see the section comment above). -/
def parseOutput? (s : List Char) : Option ContainerOutput := do
  let s ← expectPrefix "\x7b\"status\":".data s
  let (statusChars, s) ← parseStringLit s
  let status ←
    if statusChars = "success".data then some OutStatus.success
    else if statusChars = "error".data then some OutStatus.error
    else none
  let s ← expectPrefix ",\"result\":".data s
  let (result, s) ←
    if "null".data.isPrefixOf s then some ((none : Option String), s.drop 4)
    else (parseStringLit s).map (fun p => (some (String.mk p.1), p.2))
  let (convId, s) ←
    if ",\"conversationId\":".data.isPrefixOf s then
      (parseStringLit (s.drop ",\"conversationId\":".data.length)).map
        (fun p => ((some (String.mk p.1) : Option String), p.2))
    else some ((none : Option String), s)
  let (err, s) ←
    if ",\"error\":".data.isPrefixOf s then
      (parseStringLit (s.drop ",\"error\":".data.length)).map
        (fun p => ((some (String.mk p.1) : Option String), p.2))
    else some ((none : Option String), s)
  let s ← expectPrefix "\x7d".data s
  if s.isEmpty then
    some { status := status, result := result, conversationId := convId, error := err }
  else none

/-! ### The stream parser (container-runner.ts lines 236–265)

Each stdout `data` event appends the chunk to `parseBuffer` and then runs:

    while ((startIdx = parseBuffer.indexOf(OUTPUT_START_MARKER)) !== -1) {
      const endIdx = parseBuffer.indexOf(OUTPUT_END_MARKER, startIdx);
      if (endIdx === -1) break;
      const jsonStr = parseBuffer.slice(startIdx + START.length, endIdx).trim();
      parseBuffer = parseBuffer.slice(endIdx + END.length);
      try { deliver(JSON.parse(jsonStr)) } catch { /* log, skip */ }
    }
-/

/-- First index at which `pat` occurs in a list (the JS
`String.prototype.indexOf` on the character level), or `none`. -/
def findSub (pat : List Char) : List Char → Option Nat
  | [] => if pat.isPrefixOf ([] : List Char) then some 0 else none
  | c :: rest =>
    if pat.isPrefixOf (c :: rest) then some 0
    else (findSub pat rest).map (· + 1)

/-- JS whitespace for `String.prototype.trim` (the characters that can
actually occur here are ASCII). -/
def isJsWs (c : Char) : Bool :=
  (c == ' ') || (c == '\t') || (c == '\n') || (c == '\x0d') || (c == '\x0b') || (c == '\x0c')

/-- Model of `String.prototype.trim`. -/
def jsTrim (s : List Char) : List Char :=
  ((s.dropWhile isJsWs).reverse.dropWhile isJsWs).reverse

/-- One pass of the body of the `while` loop: locate the first start marker,
then the first end marker at or after it; on success return the (untrimmed)
slice between the markers and the buffer remainder after the end marker.
`e` is the end-marker index relative to the start-marker index, so the JS
slice `(startIdx + START.length, endIdx)` is a `drop`/`take` with truncated
subtraction, exactly like the JS slice that yields `''` when
`endIdx < startIdx + START.length`. -/
def extractOne (buf : List Char) : Option (List Char × List Char) :=
  match findSub startMarker buf with
  | none => none
  | some s =>
    match findSub endMarker (buf.drop s) with
    | none => none
    | some e =>
      some ((buf.drop (s + startMarker.length)).take (e - startMarker.length),
            buf.drop (s + e + endMarker.length))

/-- The full `while` loop, with explicit fuel (the loop terminates because
every iteration consumes at least the end marker from the buffer; a fuel of
`buf.length` therefore always suffices, see `extractLoopFuel_eq_of_le`).
Returns the trimmed payload slices in extraction order and the final
buffer. -/
def extractLoopFuel : Nat → List Char → List (List Char) × List Char
  | 0, buf => ([], buf)
  | fuel + 1, buf =>
    match extractOne buf with
    | none => ([], buf)
    | some (p, rest) =>
      let (ps, r) := extractLoopFuel fuel rest
      (jsTrim p :: ps, r)

/-- The extraction loop run to completion on a buffer. -/
def extractLoop (buf : List Char) : List (List Char) × List Char :=
  extractLoopFuel buf.length buf

/-- State of the streaming parser between `data` events. -/
structure StreamState where
  buffer : List Char
  delivered : List ContainerOutput
deriving DecidableEq, Repr

/-- One stdout `data` event: append the chunk, run the extraction loop, and
deliver (in order) every payload whose `JSON.parse` succeeds; payloads that
fail to parse are logged and skipped. -/
def feedChunk (st : StreamState) (chunk : List Char) : StreamState :=
  let (ps, rest) := extractLoop (st.buffer ++ chunk)
  { buffer := rest, delivered := st.delivered ++ ps.filterMap parseOutput? }

/-- Feed a whole sequence of chunks from the initial state. -/
def runStream (chunks : List (List Char)) : StreamState :=
  chunks.foldl feedChunk { buffer := [], delivered := [] }

/-- Executable substring test (used to state the marker-embedding
hypothesis of the round-trip theorem). -/
def containsSub (pat s : List Char) : Bool := (findSub pat s).isSome

/-! ## Run resolution (container-runner.ts lines 199–394)

`runContainerAgent` resolves its promise in the `container.wait().then`
handler (lines 303–381).  The inputs that handler consults are: whether the
caller passed `onOutput` (streaming mode — the marker parser only runs under
`if (onOutput)`, line 236), whether the hard-timeout callback fired
(`timedOut`), the successfully parsed streamed payloads (each of which set
`hadStreamingOutput = true` and folded its truthy `conversationId` into
`newSessionId`, lines 250–256), the exit code, and the buffered
stdout/stderr.  JS truthiness of `parsed.conversationId` means the empty
string is skipped exactly like an absent field. -/

/-- Fold of the streamed payloads into `newSessionId` (container-runner.ts
lines 252–254: `if (parsed.conversationId) newSessionId =
parsed.conversationId` — a truthiness test, so `""` is skipped). -/
def lastTruthyConvId (outs : List ContainerOutput) : Option String :=
  outs.foldl
    (fun acc o =>
      match o.conversationId with
      | some s => if s = "" then acc else some s
      | none => acc)
    none

/-- Last element of `s.split('\n')` (the one-shot fallback line choice,
container-runner.ts lines 361–362). -/
def lastLine (s : List Char) : List Char := (s.splitOn '\n').getLastD []

/-- JS `s.slice(-n)`: the last `n` characters. -/
def jsSliceLast (n : Nat) (s : String) : String :=
  String.mk (s.data.drop (s.data.length - n))

/-- The value `runContainerAgent`'s promise resolves with, as computed by the
`container.wait().then` handler (container-runner.ts lines 303–381), as a
function of the quantities described in the section comment.  The one-shot
branch re-parses the buffered stdout with single `indexOf` calls for the two
markers (lines 352–365); its `catch` message is abstracted to a fixed text
(`err.message` interpolation elided). -/
def resolveRun (onOutputPresent timedOut : Bool) (streamed : List ContainerOutput)
    (exitCode : Int) (stdout : List Char) (stderr : String) (configTimeout : Nat) :
    ContainerOutput :=
  let hadStreamingOutput := onOutputPresent && !streamed.isEmpty
  let newSessionId := if onOutputPresent then lastTruthyConvId streamed else none
  if timedOut then
    if hadStreamingOutput then
      { status := OutStatus.success, result := none, conversationId := newSessionId,
        error := none }
    else
      { status := OutStatus.error, result := none, conversationId := none,
        error := some ("Container timed out after " ++ toString configTimeout ++ "ms") }
  else if exitCode ≠ 0 then
    { status := OutStatus.error, result := none, conversationId := none,
      error := some ("Container exited with code " ++ toString exitCode ++ ": " ++
        jsSliceLast 200 stderr) }
  else if onOutputPresent then
    { status := OutStatus.success, result := none, conversationId := newSessionId,
      error := none }
  else
    let jsonLine : List Char :=
      match findSub startMarker stdout, findSub endMarker stdout with
      | some si, some ei =>
        if si < ei then
          jsTrim ((stdout.drop (si + startMarker.length)).take (ei - (si + startMarker.length)))
        else lastLine (jsTrim stdout)
      | _, _ => lastLine (jsTrim stdout)
    match parseOutput? jsonLine with
    | some out => out
    | none =>
      { status := OutStatus.error, result := none, conversationId := none,
        error := some "Failed to parse output" }

/-- The claim's reading of "the last streamed non-null conversationId",
written from the specification's words (for comparison with the code-derived
`lastTruthyConvId`). -/
def lastNonNullConvId (outs : List ContainerOutput) : Option String :=
  outs.foldl
    (fun acc o =>
      match o.conversationId with
      | some s => some s
      | none => acc)
    none

/-! ## The in-container agent loop (container/agent-runner/src/index.ts,
lines 297–370)

`runAgentLoop` iterates `for (let i = 0; i < maxIterations; i++)` with
`maxIterations = 50` (line 305).  Each iteration calls the LLM backend once;
if the answer carries no tool calls the loop returns the answer text,
otherwise every requested call is executed (failures are converted to
result strings by `callMCPTool`, which never throws), the tool-result turns
are appended, any IPC input that arrived during the dispatch is appended as
user turns, and the loop continues.  Falling out of the loop returns the
degraded result (lines 365–369).  The backend, the tool servers and the IPC
arrivals are abstracted as oracles (`LoopEnv`); IPC user turns are carried
as plain strings (`buildMultimodalContent` collapses to the text when there
is no media). -/

/-- One tool call requested by a completion. -/
structure ToolCall where
  id : String
  name : String
  arguments : String
deriving DecidableEq, Repr

/-- The assistant message of a completion choice. -/
structure AssistantMsg where
  content : Option String
  tool_calls : List ToolCall
deriving DecidableEq, Repr

/-- A turn of the conversation the loop accumulates. -/
inductive ChatMsg where
  | user (content : String)
  | assistant (m : AssistantMsg)
  | tool (tool_call_id : String) (content : String)
deriving DecidableEq, Repr

/-- Return value of the loop. -/
structure LoopResult where
  response : String
  updatedMessages : List ChatMsg
deriving DecidableEq, Repr

/-- `const maxIterations = 50` (agent-runner index.ts line 305). -/
def maxIterations : Nat := 50

/-- The loop's environment: the completion backend (`none` models
`completion.choices[0]` being absent), the tool executor (`callMCPTool`,
which returns an error payload string instead of throwing), and the IPC
texts drained after the tool dispatch of iteration `i`. -/
structure LoopEnv where
  complete : List ChatMsg → Option AssistantMsg
  toolResult : ToolCall → String
  ipcArrivals : Nat → List String

/-- The loop body, with `fuel` the remaining iterations (`maxIterations - i`)
and `i` the current iteration index.  Returns the result together with the
number of completions performed. -/
def runAgentLoopAux (env : LoopEnv) : Nat → Nat → List ChatMsg → LoopResult × Nat
  | 0, _, msgs =>
    ({ response := "Agent reached maximum iteration limit.", updatedMessages := msgs }, 0)
  | fuel + 1, i, msgs =>
    match env.complete msgs with
    | none => ({ response := "No response from model", updatedMessages := msgs }, 1)
    | some am =>
      let msgs1 := msgs ++ [ChatMsg.assistant am]
      if am.tool_calls.isEmpty then
        ({ response := am.content.getD "", updatedMessages := msgs1 }, 1)
      else
        let msgs2 := msgs1 ++ am.tool_calls.map (fun tc => ChatMsg.tool tc.id (env.toolResult tc))
        let msgs3 := msgs2 ++ (env.ipcArrivals i).map ChatMsg.user
        let (r, n) := runAgentLoopAux env fuel (i + 1) msgs3
        (r, n + 1)

/-- `runAgentLoop` (agent-runner index.ts lines 297–370). -/
def runAgentLoop (env : LoopEnv) (msgs : List ChatMsg) : LoopResult × Nat :=
  runAgentLoopAux env maxIterations 0 msgs

/-! ## Orchestrator delegation (src/orchestrator.ts, lines 580–635) -/

/-- The columns of an `agents` row (db.ts `AgentRow`, lines 101–111) touched
by the modelled code; `mcp_servers` is an opaque payload.  In the database
`id` is the primary key and `name` is UNIQUE (migrations/001_init.sql lines
8–18). -/
structure AgentRec where
  id : String
  name : String
  system_prompt : String
  model : String
  mcp_servers : List String
  is_orchestrator : Bool
deriving DecidableEq, Repr

/-- `getAgentByName` (db.ts lines 149–152): `WHERE name = $1`. -/
def getAgentByName (db : List AgentRec) (name : String) : Option AgentRec :=
  db.find? (fun a => a.name == name)

/-- The fields of the in-memory `OrchestratorState` that `handleDelegation`
reads. -/
structure OrchStateM where
  agentId : String
  activeContainerId : Option String
  chatId : Option String
deriving DecidableEq, Repr

/-- Host-side effects of a delegation, in order. -/
inductive HostAction where
  | ipcWrite (agentId : String) (text : String)  -- a sendIpcMessage(agentId, text) call
  | spawn (agentId : String) (prompt : String)   -- a runContainerAgent spawn
deriving DecidableEq, Repr

/-- JS `Array.prototype.join(', ')`. -/
def joinComma : List String → String
  | [] => ""
  | [s] => s
  | s :: rest => s ++ ", " ++ joinComma rest

/-- The text written back on an unknown delegation target (orchestrator.ts
lines 593–596). -/
def notFoundMessage (targetAgentName : String) (allAgents : List AgentRec) : String :=
  "[SYSTEM] Agent \"" ++ targetAgentName ++ "\" not found. Available agents: " ++
    joinComma ((allAgents.filter (fun a => !a.is_orchestrator)).map (·.name))

/-- Oracle for the specialist container run triggered by a delegation: the
outputs streamed to `onOutput` in order, and the resolved final output. -/
structure SpecialistRun where
  streamed : List ContainerOutput
  final : ContainerOutput
deriving DecidableEq, Repr

/-- Model of `handleDelegation(targetAgentName, task, waitForResult)`
(orchestrator.ts lines 580–635), returning the host actions it performs in
order.  The guard `if (!state || !channel || !state.chatId) return` is the
`chatId.isNone` case; the orchestrator state is held fixed over the run
(one delegation at a time). -/
def handleDelegation (st : OrchStateM) (allAgents : List AgentRec)
    (targetAgentName task : String) (waitForResult : Bool) (run : SpecialistRun) :
    List HostAction :=
  if st.chatId.isNone then []
  else
    match allAgents.find? (fun a => a.name == targetAgentName) with
    | none =>
      if st.activeContainerId.isSome then
        [HostAction.ipcWrite st.agentId (notFoundMessage targetAgentName allAgents)]
      else []
    | some targetAgent =>
      HostAction.spawn targetAgent.id task ::
      (run.streamed.filterMap (fun o =>
        match o.result with
        | some r =>
          -- `if (output.result && waitForResult && state?.activeContainerId)`
          if (r != "") && waitForResult && st.activeContainerId.isSome then
            some (HostAction.ipcWrite st.agentId
              ("[SPECIALIST RESULT from " ++ targetAgentName ++ "]\n" ++ r))
          else none
        | none => none)) ++
      (if (run.final.status == OutStatus.error) && st.activeContainerId.isSome then
        [HostAction.ipcWrite st.agentId
          ("[SPECIALIST ERROR from " ++ targetAgentName ++ "] " ++
            (run.final.error.getD "undefined"))]
      else [])

/-! ## Agent-management IPC commands (src/ipc.ts, lines 230–315) -/

/-- The three agent-management envelopes, with each field `Option`al (absent
JSON members are `undefined` in JS). -/
inductive AgentCmd where
  | create_agent (name system_prompt model : Option String)
      (mcp_servers : Option (List String))
  | update_agent (name : Option String) (system_prompt model : Option String)
      (mcp_servers : Option (List String))
  | delete_agent (name : Option String)
deriving DecidableEq, Repr

/-- JS truthiness of an optional string field (`!name` rejects both an
absent field and the empty string). -/
def truthy : Option String → Bool
  | none => false
  | some s => s != ""

/-- `createAgent` (db.ts lines 113–141): `INSERT ... ON CONFLICT (name) DO
UPDATE`.  On a name conflict the existing row keeps its id and every other
column is overwritten with the arguments. -/
def createAgentDb (db : List AgentRec) (freshId name system_prompt model : String)
    (mcp_servers : List String) (is_orchestrator : Bool) : List AgentRec :=
  if db.any (fun a => a.name == name) then
    db.map (fun a =>
      if a.name == name then
        { a with system_prompt := system_prompt, model := model,
                 mcp_servers := mcp_servers, is_orchestrator := is_orchestrator }
      else a)
  else
    db ++ [{ id := freshId, name := name, system_prompt := system_prompt, model := model,
             mcp_servers := mcp_servers, is_orchestrator := is_orchestrator }]

/-- `updateAgent` (db.ts lines 166–200): update by id; only the supplied
columns change, and `is_orchestrator` is not an updatable column.  With no
supplied column the function returns without a query. -/
def updateAgentDb (db : List AgentRec) (id : String)
    (system_prompt model : Option String) (mcp_servers : Option (List String)) :
    List AgentRec :=
  if system_prompt.isNone && model.isNone && mcp_servers.isNone then db
  else
    db.map (fun a =>
      if a.id == id then
        { a with system_prompt := system_prompt.getD a.system_prompt,
                 model := model.getD a.model,
                 mcp_servers := mcp_servers.getD a.mcp_servers }
      else a)

/-- `deleteAgent` (db.ts lines 202–204): `DELETE ... WHERE id = $1`. -/
def deleteAgentDb (db : List AgentRec) (id : String) : List AgentRec :=
  db.filter (fun a => !(a.id == id))

/-- The specialist snapshot `writeAgentsSnapshot` writes (agent-snapshot.ts
lines 16–39): every non-orchestrator row, or nothing at all when no
orchestrator row exists (the function returns before writing).  Timestamp
columns elided. -/
def agentsSnapshotFile (db : List AgentRec) : Option (List AgentRec) :=
  if db.any (fun a => a.is_orchestrator) then
    some (db.filter (fun a => !a.is_orchestrator))
  else none

/-- The `create_agent` / `update_agent` / `delete_agent` cases of
`processTaskIpc` (ipc.ts lines 230–315).  Returns the database after the
command together with whether `writeAgentsSnapshot()` was invoked. -/
def processAgentCmd (db : List AgentRec) (freshId : String) (cmd : AgentCmd) :
    List AgentRec × Bool :=
  match cmd with
  | AgentCmd.create_agent name sp model mcp =>
    if !(truthy name && truthy sp && truthy model) then (db, false)
    else
      let n := name.getD ""
      -- `if (existing?.is_orchestrator) break` — absent agent falls through
      let existingOrch :=
        match getAgentByName db n with
        | some e => e.is_orchestrator
        | none => false
      if existingOrch then (db, false)
      else
        (createAgentDb db freshId n (sp.getD "") (model.getD "") (mcp.getD []) false, true)
  | AgentCmd.update_agent name sp model mcp =>
    if !(truthy name) then (db, false)
    else
      match getAgentByName db (name.getD "") with
      | none => (db, false)
      | some agent =>
        if agent.is_orchestrator then (db, false)
        else if sp.isNone && model.isNone && mcp.isNone then (db, false)
          -- `Object.keys(updates).length > 0` fails: no update, no snapshot
        else (updateAgentDb db agent.id sp model mcp, true)
  | AgentCmd.delete_agent name =>
    if !(truthy name) then (db, false)
    else
      match getAgentByName db (name.getD "") with
      | none => (db, false)
      | some agent =>
        if agent.is_orchestrator then (db, false)
        else (deleteAgentDb db agent.id, true)

/-! ## Inbound message routing (src/orchestrator.ts lines 237–303,
src/container-runner.ts lines 413–427) -/

/-- A media attachment reference (types.ts `MediaAttachment`). -/
structure MediaRef where
  type : String
  path : String
  mimeType : String
deriving DecidableEq, Repr

/-- The JSON object `sendIpcMessage` writes into the input-envelope file
(container-runner.ts line 421): `JSON.stringify(\x7b type: 'message', text \x7d)`.
The function's signature is `(agentId: string, text: string)`; it has no
media parameter, so the record has no media field. -/
structure InputEnvelope where
  type : String
  text : String
deriving DecidableEq, Repr

/-- The envelope for a given text. -/
def sendIpcEnvelope (text : String) : InputEnvelope :=
  { type := "message", text := text }

/-- Observable routing outcome of one inbound message. -/
inductive RouteOutcome where
  | piped (agentId : String) (envelope : InputEnvelope)
  | spawned (prompt : String) (media : List MediaRef)
deriving DecidableEq, Repr

/-- The routing decision of `handleMessage` for a non-`/clear` inbound
message (orchestrator.ts lines 289–303): with an active container, pipe via
`sendIpcMessage(state.agent.id, content, ipcMedia)` — a call whose third
argument has no matching parameter in the function's `(agentId, text)`
signature and is dropped — falling back to a fresh container spawn (with
`prompt` the message and `media` attached to the `ContainerInput`) when the
write fails or no container is active.  `sendOk` abstracts whether the
envelope write to the filesystem succeeds. -/
def routeInbound (activeContainerId : Option String) (agentId : String) (sendOk : Bool)
    (content : String) (media : List MediaRef) : RouteOutcome :=
  match activeContainerId with
  | some _ =>
    if sendOk then RouteOutcome.piped agentId (sendIpcEnvelope content)
    else RouteOutcome.spawned content media
  | none => RouteOutcome.spawned content media

end Astrobot

namespace Astrobot

/-! ### Lexicographic-order lemmas (for C7) -/

/-- Totality of the lexicographic comparison on char lists. -/
theorem lexLe_total (a b : List Char) : lexLe a b = true ∨ lexLe b a = true := by
  induction a generalizing b with
  | nil => left; rfl
  | cons x xs ih =>
    cases b with
    | nil => right; rfl
    | cons y ys =>
      by_cases hxy : x = y
      · subst hxy
        rcases ih ys with h | h
        · left; simp [lexLe, h]
        · right; simp [lexLe, h]
      · rcases lt_or_gt_of_ne hxy with h | h
        · left; simp [lexLe, hxy, h]
        · right; simp [lexLe, Ne.symm hxy, h]

/-- Totality of the lexicographic order on strings. -/
theorem strLexLe_total (a b : String) : strLexLe a b = true ∨ strLexLe b a = true :=
  lexLe_total a.data b.data

/-- The head condition that lets a sorted tail extend to a sorted list. -/
def headLe (t : String) : List String → Bool
  | [] => true
  | x :: _ => strLexLe t x

theorem isSortedLex_cons (t : String) (l : List String)
    (h1 : headLe t l = true) (h2 : isSortedLex l = true) :
    isSortedLex (t :: l) = true := by
  cases l with
  | nil => rfl
  | cons x xs => simp only [isSortedLex, Bool.and_eq_true]; exact ⟨h1, h2⟩

/-- Inserting into a sorted list keeps it sorted. -/
theorem insertLex_sorted (s : String) (l : List String) (h : isSortedLex l = true) :
    isSortedLex (insertLex s l) = true := by
  induction l with
  | nil => rfl
  | cons t ts ih =>
    by_cases hst : strLexLe s t = true
    · simp only [insertLex, hst, if_true]
      show (strLexLe s t && isSortedLex (t :: ts)) = true
      rw [hst, h]
      rfl
    · have hts : strLexLe t s = true := (strLexLe_total s t).resolve_left hst
      simp only [insertLex, hst, if_false]
      cases ts with
      | nil =>
        show (strLexLe t s && isSortedLex [s]) = true
        rw [hts]
        rfl
      | cons u us =>
        have hparts : strLexLe t u = true ∧ isSortedLex (u :: us) = true := by
          have h' := h
          rw [show isSortedLex (t :: u :: us) = (strLexLe t u && isSortedLex (u :: us))
            from rfl] at h'
          simpa using h'
        have hrec : isSortedLex (insertLex s (u :: us)) = true := ih hparts.2
        by_cases hsu : strLexLe s u = true
        · rw [show insertLex s (u :: us) = s :: u :: us from by simp [insertLex, hsu]]
          show (strLexLe t s && isSortedLex (s :: u :: us)) = true
          rw [hts]
          rw [show insertLex s (u :: us) = s :: u :: us from by simp [insertLex, hsu]] at hrec
          simpa using hrec
        · rw [show insertLex s (u :: us) = u :: insertLex s us from by simp [insertLex, hsu]]
          show (strLexLe t u && isSortedLex (u :: insertLex s us)) = true
          rw [show insertLex s (u :: us) = u :: insertLex s us from by simp [insertLex, hsu]]
            at hrec
          rw [hparts.1, hrec]
          rfl

/-- The insertion result is a permutation of pushing in front. -/
theorem insertLex_perm (s : String) (l : List String) :
    (insertLex s l).Perm (s :: l) := by
  induction l with
  | nil => simp [insertLex]
  | cons t ts ih =>
    by_cases hst : strLexLe s t = true
    · simp [insertLex, hst]
    · simp only [insertLex, hst, if_false]
      exact ((ih.cons t).trans (List.Perm.swap s t ts))

/-- Insertion sort sorts. -/
theorem sortLex_sorted (l : List String) : isSortedLex (sortLex l) = true := by
  induction l with
  | nil => rfl
  | cons s ss ih => exact insertLex_sorted s (sortLex ss) ih

/-- Insertion sort permutes. -/
theorem sortLex_perm (l : List String) : (sortLex l).Perm l := by
  induction l with
  | nil => rfl
  | cons s ss ih => exact (insertLex_perm s (sortLex ss)).trans (ih.cons s)

/-! ### Claim C1 -/

/-- Claim C1 fails on the code: at `parseOk := true`, `handleOk := false`
(well-formed JSON whose handler throws) the file was already unlinked before
the handler ran, and the quarantine rename silently fails, so the file ends
up `gone`, not `quarantined` — refuting both halves of the claim
("deleted only after its handler has completed successfully" and "if
handling throws, the file is moved to the errors quarantine directory"). -/
theorem claim_C1_counterexample :
    ¬ (∀ parseOk handleOk : Bool,
        ((processIpcFile parseOk handleOk).1 = FileLoc.gone →
          (processIpcFile parseOk handleOk).2 = true) ∧
        (parseOk = true → handleOk = false →
          (processIpcFile parseOk handleOk).1 = FileLoc.quarantined)) := by
  decide

/-- Claim C1 (amended): the watcher unlinks each file as soon as its JSON
parses, before the handler runs.  A file whose JSON fails to parse is moved
to the errors quarantine (and its handler never runs); a file whose handler
throws was already deleted, and the attempted quarantine move silently
fails, so it is lost.  The handler completes exactly when both stages
succeed. -/
theorem claim_C1 (parseOk handleOk : Bool) :
    (parseOk = true → (processIpcFile parseOk handleOk).1 = FileLoc.gone) ∧
    (parseOk = false →
      (processIpcFile parseOk handleOk).1 = FileLoc.quarantined ∧
      (processIpcFile parseOk handleOk).2 = false) ∧
    ((processIpcFile parseOk handleOk).2 = true ↔ parseOk = true ∧ handleOk = true) := by
  cases parseOk <;> cases handleOk <;> decide

/-- Concrete instantiation of `claim_C1`. -/
theorem claim_C1_witness :
    (processIpcFile true false).1 = FileLoc.gone ∧
    (processIpcFile false true).1 = FileLoc.quarantined :=
  ⟨(claim_C1 true false).1 rfl, ((claim_C1 false true).2.1 rfl).1⟩

/-! ### Claim C7 -/

/-- Claim C7 fails on the code: the host watcher uses the `readdirSync`
listing unsorted (ipc.ts lines 69–73 have no `.sort()`), so with the
directory listing `["2-b.json", "1-a.json"]` it processes `2-b.json` before
`1-a.json`, which is not lexicographic order. -/
theorem claim_C7_counterexample :
    ¬ (∀ listing : List String,
        isSortedLex (hostProcessOrder listing) = true ∧
        isSortedLex (drainProcessOrder listing) = true) := by
  intro h
  exact absurd (h ["2-b.json", "1-a.json"]).1 (by decide)

/-- Claim C7 (amended): only the in-container drain sorts — it processes
exactly the `.json` files of the listing, in lexicographically sorted
order; the host watcher processes the `.json` files in directory-listing
order, without sorting. -/
theorem claim_C7 (listing : List String) :
    isSortedLex (drainProcessOrder listing) = true ∧
    (drainProcessOrder listing).Perm (listing.filter endsWithJson) ∧
    hostProcessOrder listing = listing.filter endsWithJson :=
  ⟨sortLex_sorted _, sortLex_perm _, rfl⟩

/-! ### Claim C8 -/

/-- Claim C8: a file whose JSON fails to parse is quarantined (its handler
never runs), and the batch is a total map over the `.json` files of the
listing — every file of the batch is processed, so one malformed file never
stops the remaining files of the same tick from being handled. -/
theorem claim_C8 (files : List IpcFile) :
    (∀ f ∈ files, endsWithJson f.name = true → f.parseOk = false →
      (f.name, (FileLoc.quarantined, false)) ∈ processIpcBatch files) ∧
    (processIpcBatch files).map Prod.fst =
      (files.filter (fun f => endsWithJson f.name)).map IpcFile.name := by
  constructor
  · intro f hf hjson hparse
    have hmem : f ∈ files.filter (fun f => endsWithJson f.name) :=
      List.mem_filter.mpr ⟨hf, hjson⟩
    have hm :
        (f.name, processIpcFile f.parseOk f.handleOk) ∈ processIpcBatch files :=
      List.mem_map_of_mem _ hmem
    simpa [hparse, processIpcFile, moveToErrors] using hm
  · simp [processIpcBatch]

/-- Concrete instantiation of `claim_C8`: in a batch with a malformed first
file, the malformed file is quarantined and the valid second file is still
handled. -/
theorem claim_C8_witness :
    ("1-a.json", (FileLoc.quarantined, false)) ∈
      processIpcBatch [⟨"1-a.json", false, true⟩, ⟨"2-b.json", true, true⟩] ∧
    ("2-b.json", (FileLoc.gone, true)) ∈
      processIpcBatch [⟨"1-a.json", false, true⟩, ⟨"2-b.json", true, true⟩] :=
  ⟨(claim_C8 _).1 ⟨"1-a.json", false, true⟩ (by simp) (by decide) rfl, by decide⟩

/-! ### Claim C5 -/

/-- Helper: under a backend that always requests a tool call, the loop
consumes all its fuel and returns the degraded message. -/
theorem runAgentLoopAux_always_tools (env : LoopEnv)
    (halways : ∀ ms, ∃ am, env.complete ms = some am ∧ am.tool_calls ≠ []) :
    ∀ fuel i msgs,
      (runAgentLoopAux env fuel i msgs).1.response =
        "Agent reached maximum iteration limit." ∧
      (runAgentLoopAux env fuel i msgs).2 = fuel := by
  intro fuel
  induction fuel with
  | zero => intro i msgs; exact ⟨rfl, rfl⟩
  | succ n ih =>
    intro i msgs
    obtain ⟨am, hc, ht⟩ := halways msgs
    have hne : am.tool_calls.isEmpty = false := by
      cases h : am.tool_calls with
      | nil => exact absurd h ht
      | cons a l => rfl
    simp only [runAgentLoopAux, hc, hne, Bool.false_eq_true, if_false]
    exact ⟨(ih _ _).1, by simpa using (ih _ _).2⟩

/-- Claim C5: if every completion requests at least one tool call,
`runAgentLoop` performs exactly `maxIterations = 50` completions and returns
the degraded "Agent reached maximum iteration limit." result — it neither
iterates further nor diverges (the loop is a total function). -/
theorem claim_C5 (env : LoopEnv) (msgs : List ChatMsg)
    (halways : ∀ ms, ∃ am, env.complete ms = some am ∧ am.tool_calls ≠ []) :
    (runAgentLoop env msgs).1.response = "Agent reached maximum iteration limit." ∧
    (runAgentLoop env msgs).2 = 50 :=
  runAgentLoopAux_always_tools env halways maxIterations 0 msgs

/-- Concrete instantiation of `claim_C5`: a backend that always asks for one
tool call. -/
theorem claim_C5_witness :
    (runAgentLoop
        ⟨fun _ => some ⟨none, [⟨"1", "t", "a"⟩]⟩, fun _ => "r", fun _ => []⟩
        []).1.response = "Agent reached maximum iteration limit." ∧
    (runAgentLoop
        ⟨fun _ => some ⟨none, [⟨"1", "t", "a"⟩]⟩, fun _ => "r", fun _ => []⟩
        []).2 = 50 :=
  claim_C5 _ [] (fun _ => ⟨⟨none, [⟨"1", "t", "a"⟩]⟩, rfl, by simp⟩)

/-! ### Claim C6 -/

/-- Claim C6 fails on the literal form of the message: the relayed text
carries a `[SYSTEM] ` prefix.  At the concrete state (active orchestrator
container `orc-id`, one specialist `coder`) and unknown target `bogus`, the
only action is an IPC write of
`[SYSTEM] Agent "bogus" not found. Available agents: coder`, which differs
from the claimed literal `Agent "bogus" not found. Available agents: coder`. -/
theorem claim_C6_counterexample :
    handleDelegation ⟨"orc-id", some "orc-id", some "chat"⟩
        [⟨"orc-id", "orchestrator", "p", "m", [], true⟩,
         ⟨"a1", "coder", "p", "m", [], false⟩]
        "bogus" "task" true ⟨[], ⟨OutStatus.success, none, none, none⟩⟩ =
      [HostAction.ipcWrite "orc-id"
        "[SYSTEM] Agent \"bogus\" not found. Available agents: coder"] ∧
    "[SYSTEM] Agent \"bogus\" not found. Available agents: coder" ≠
      "Agent \"bogus\" not found. Available agents: coder" := by
  constructor
  · rfl
  · decide

/-- Claim C6 (amended): when a `delegate_to_agent` command names an unknown
agent, no container is spawned for it, and — provided an orchestrator
container is active to receive it — the message
`[SYSTEM] Agent "<name>" not found. Available agents: <comma-separated
specialist names>` is written into the delegating orchestrator's input
IPC as the only action. -/
theorem claim_C6 (st : OrchStateM) (allAgents : List AgentRec)
    (name task : String) (wfr : Bool) (run : SpecialistRun)
    (hfind : allAgents.find? (fun a => a.name == name) = none) :
    (∀ a ∈ handleDelegation st allAgents name task wfr run,
      ∀ tid p, a ≠ HostAction.spawn tid p) ∧
    (st.chatId.isSome → st.activeContainerId.isSome →
      handleDelegation st allAgents name task wfr run =
        [HostAction.ipcWrite st.agentId (notFoundMessage name allAgents)]) := by
  have hd : handleDelegation st allAgents name task wfr run =
      if st.chatId.isNone then []
      else if st.activeContainerId.isSome then
        [HostAction.ipcWrite st.agentId (notFoundMessage name allAgents)]
      else [] := by
    unfold handleDelegation
    simp only [hfind]
  constructor
  · intro a ha tid p
    rw [hd] at ha
    split_ifs at ha with h1 h2
    · simp at ha
    · simp at ha
      subst ha
      simp
    · simp at ha
  · intro h1 h2
    rw [hd]
    have hnn : st.chatId.isNone = false := by
      rcases hc : st.chatId with _ | c
      · rw [hc] at h1; simp at h1
      · rfl
    simp [hnn, h2]

/-- Concrete instantiation of `claim_C6`. -/
theorem claim_C6_witness :
    handleDelegation ⟨"orc-id", some "orc-id", some "chat"⟩
        [⟨"orc-id", "orchestrator", "p", "m", [], true⟩,
         ⟨"a1", "coder", "p", "m", [], false⟩]
        "bogus" "task" true ⟨[], ⟨OutStatus.success, none, none, none⟩⟩ =
      [HostAction.ipcWrite "orc-id"
        (notFoundMessage "bogus"
          [⟨"orc-id", "orchestrator", "p", "m", [], true⟩,
           ⟨"a1", "coder", "p", "m", [], false⟩])] :=
  (claim_C6 ⟨"orc-id", some "orc-id", some "chat"⟩ _ "bogus" "task" true
      ⟨[], ⟨OutStatus.success, none, none, none⟩⟩ (by decide)).2 rfl rfl

/-! ### Claim C10 -/

/-- Claim C10: a message forwarded to an already-running orchestrator
container is written as exactly the envelope `\x7btype: 'message', text\x7d`,
for every accompanying media list (the attachments are dropped); media
reaches the container input only on the fallback spawn path, where the
message is the fresh container's initial prompt and the media ride along in
its `ContainerInput`. -/
theorem claim_C10 (agentId content : String) (media : List MediaRef) (active : String) :
    routeInbound (some active) agentId true content media =
      RouteOutcome.piped agentId ⟨"message", content⟩ ∧
    routeInbound (some active) agentId false content media =
      RouteOutcome.spawned content media ∧
    routeInbound none agentId true content media =
      RouteOutcome.spawned content media := by
  exact ⟨rfl, rfl, rfl⟩

/-! ### Claim C9 -/

/-- Mapping a function that fixes every `p`-element and preserves `p`
does not change the `p`-filtered sublist. -/
theorem filter_map_invariant {α : Type} {p : α → Bool} (l : List α) (f : α → α)
    (h1 : ∀ a ∈ l, p a = true → f a = a)
    (h2 : ∀ a ∈ l, p (f a) = p a) :
    (l.map f).filter p = l.filter p := by
  induction l with
  | nil => rfl
  | cons a l ih =>
    have ih' := ih (fun x hx => h1 x (List.mem_cons_of_mem a hx))
      (fun x hx => h2 x (List.mem_cons_of_mem a hx))
    rcases hp : p a with _ | _
    · have hfa : p (f a) = false := by rw [h2 a (List.mem_cons_self a l), hp]
      simp [hfa, hp, ih']
    · have hfa : f a = a := h1 a (List.mem_cons_self a l) hp
      simp [hfa, hp, ih']

/-- Filtering by `p` first does not change the `q`-filtered sublist when
every `q`-element is a `p`-element. -/
theorem filter_filter_sub {α : Type} {p q : α → Bool} (l : List α)
    (h : ∀ a ∈ l, q a = true → p a = true) :
    (l.filter p).filter q = l.filter q := by
  induction l with
  | nil => rfl
  | cons a l ih =>
    have ih' := ih (fun x hx => h x (List.mem_cons_of_mem a hx))
    rcases hq : q a with _ | _
    · rcases hp : p a with _ | _ <;> simp [hp, hq, ih']
    · have hp : p a = true := h a (List.mem_cons_self a l) hq
      simp [hp, hq, ih']

/-- The `name` field of an agent-management command. -/
def cmdName : AgentCmd → Option String
  | AgentCmd.create_agent n _ _ _ => n
  | AgentCmd.update_agent n _ _ _ => n
  | AgentCmd.delete_agent n => n

/-- Claim C9: for every `create_agent` / `update_agent` / `delete_agent`
command — under the database's own constraints (`id` primary key, `name`
UNIQUE) — (i) the orchestrator-marked rows after the command are exactly the
orchestrator-marked rows before it (the orchestrator is never created,
modified or deleted); (ii) a command naming the orchestrator agent is
rejected: the database is unchanged and no snapshot is written; and
(iii) whenever the command changed the database, `writeAgentsSnapshot()`
was invoked. -/
theorem claim_C9 (db : List AgentRec) (freshId : String) (cmd : AgentCmd)
    (hids : (db.map AgentRec.id).Nodup) (hnames : (db.map AgentRec.name).Nodup) :
    ((processAgentCmd db freshId cmd).1.filter (fun a => a.is_orchestrator) =
      db.filter (fun a => a.is_orchestrator)) ∧
    (∀ a, getAgentByName db ((cmdName cmd).getD "") = some a →
      a.is_orchestrator = true → processAgentCmd db freshId cmd = (db, false)) ∧
    ((processAgentCmd db freshId cmd).1 ≠ db →
      (processAgentCmd db freshId cmd).2 = true) := by
  have hidinj : ∀ x ∈ db, ∀ y ∈ db, x.id = y.id → x = y := by
    intro x hx y hy hxy
    exact List.inj_on_of_nodup_map hids hx hy hxy
  have hnameinj : ∀ x ∈ db, ∀ y ∈ db, x.name = y.name → x = y := by
    intro x hx y hy hxy
    exact List.inj_on_of_nodup_map hnames hx hy hxy
  cases cmd with
  | create_agent n sp mo mc =>
    by_cases htru : (truthy n && truthy sp && truthy mo) = true
    · rcases hfind : getAgentByName db (n.getD "") with _ | e
      · -- no agent with that name: insert branch of the upsert
        have hres : processAgentCmd db freshId (AgentCmd.create_agent n sp mo mc) =
            (createAgentDb db freshId (n.getD "") (sp.getD "") (mo.getD "") (mc.getD [])
              false, true) := by
          simp only [processAgentCmd, htru, Bool.not_true, Bool.false_eq_true, if_false,
            hfind]
        have hany : db.any (fun a => a.name == n.getD "") = false := by
          rcases h : db.any (fun a => a.name == n.getD "") with _ | _
          · rfl
          · obtain ⟨x, hx, hpx⟩ := List.any_eq_true.mp h
            have : db.find? (fun a => a.name == n.getD "") ≠ none :=
              List.find?_isSome.mpr ⟨x, hx, hpx⟩ |> Option.isSome_iff_ne_none.mp
            exact absurd hfind this
        refine ⟨?_, ?_, ?_⟩
        · rw [hres]
          simp only [createAgentDb, hany, Bool.false_eq_true, if_false]
          simp
        · intro a ha
          simp only [cmdName] at ha
          rw [hfind] at ha
          exact absurd ha (by simp)
        · rw [hres]
          intro _
          rfl
      · have hem : e ∈ db := List.mem_of_find?_eq_some hfind
        have hename : e.name = n.getD "" := by
          have := List.find?_some hfind
          simpa using this
        rcases heorch : e.is_orchestrator with _ | _
        · -- existing non-orchestrator row: overwrite branch of the upsert
          have hres : processAgentCmd db freshId (AgentCmd.create_agent n sp mo mc) =
              (createAgentDb db freshId (n.getD "") (sp.getD "") (mo.getD "") (mc.getD [])
                false, true) := by
            simp only [processAgentCmd, htru, Bool.not_true, Bool.false_eq_true, if_false,
              hfind, heorch]
          have hany : db.any (fun a => a.name == n.getD "") = true :=
            List.any_eq_true.mpr ⟨e, hem, by simp [hename]⟩
          refine ⟨?_, ?_, ?_⟩
          · rw [hres]
            simp only [createAgentDb, hany, if_true]
            refine filter_map_invariant db _ ?_ ?_
            · intro a ha horch
              have hne : (a.name == n.getD "") = false := by
                rcases h : (a.name == n.getD "") with _ | _
                · rfl
                · have : a = e := hnameinj a ha e hem (by
                    rw [hename]; exact beq_iff_eq.mp h)
                  rw [this] at horch
                  rw [horch] at heorch
                  exact absurd heorch (by simp)
              simp [hne]
            · intro a ha
              rcases h : (a.name == n.getD "") with _ | _
              · simp [h]
              · have hae : a = e := hnameinj a ha e hem (by
                  rw [hename]; exact beq_iff_eq.mp h)
                simp only [h, if_true]
                rw [hae, heorch]
          · intro a ha horch
            simp only [cmdName] at ha
            rw [hfind] at ha
            have hae : e = a := Option.some_inj.mp ha
            rw [← hae] at horch
            exact absurd horch (by simp [heorch])
          · rw [hres]
            intro _
            rfl
        · -- existing orchestrator row: mutation rejected
          have hres : processAgentCmd db freshId (AgentCmd.create_agent n sp mo mc) =
              (db, false) := by
            simp only [processAgentCmd, htru, Bool.not_true, Bool.false_eq_true, if_false,
              hfind, heorch, if_true]
          exact ⟨by rw [hres], fun a ha h2 => hres, by rw [hres]; exact fun h => absurd rfl h⟩
    · have htru' : (truthy n && truthy sp && truthy mo) = false :=
        Bool.not_eq_true _ ▸ (by simpa using htru)
      have hres : processAgentCmd db freshId (AgentCmd.create_agent n sp mo mc) =
          (db, false) := by
        simp only [processAgentCmd, htru', Bool.not_false, if_true]
      exact ⟨by rw [hres], fun a ha h2 => hres, by rw [hres]; exact fun h => absurd rfl h⟩
  | update_agent n sp mo mc =>
    by_cases htru : truthy n = true
    · rcases hfind : getAgentByName db (n.getD "") with _ | agent
      · have hres : processAgentCmd db freshId (AgentCmd.update_agent n sp mo mc) =
            (db, false) := by
          simp only [processAgentCmd, htru, Bool.not_true, Bool.false_eq_true, if_false,
            hfind]
        exact ⟨by rw [hres], fun a ha h2 => hres, by rw [hres]; exact fun h => absurd rfl h⟩
      · have hmem : agent ∈ db := List.mem_of_find?_eq_some hfind
        rcases horch : agent.is_orchestrator with _ | _
        · by_cases hupd : (sp.isNone && mo.isNone && mc.isNone) = true
          · have hres : processAgentCmd db freshId (AgentCmd.update_agent n sp mo mc) =
                (db, false) := by
              simp only [processAgentCmd, htru, Bool.not_true, Bool.false_eq_true, if_false,
                hfind, horch, hupd, if_true]
            refine ⟨by rw [hres], ?_, by rw [hres]; exact fun h => absurd rfl h⟩
            intro a ha h2
            exact hres
          · have hupd' : (sp.isNone && mo.isNone && mc.isNone) = false := by
              rcases h : (sp.isNone && mo.isNone && mc.isNone) with _ | _
              · rfl
              · exact absurd h hupd
            have hres : processAgentCmd db freshId (AgentCmd.update_agent n sp mo mc) =
                (updateAgentDb db agent.id sp mo mc, true) := by
              simp only [processAgentCmd, htru, Bool.not_true, Bool.false_eq_true, if_false,
                hfind, horch, hupd', if_false]
            refine ⟨?_, ?_, by rw [hres]; exact fun _ => rfl⟩
            · rw [hres]
              simp only [updateAgentDb, hupd', Bool.false_eq_true, if_false]
              refine filter_map_invariant db _ ?_ ?_
              · intro a ha ho
                have hne : (a.id == agent.id) = false := by
                  rcases h : (a.id == agent.id) with _ | _
                  · rfl
                  · have : a = agent := hidinj a ha agent hmem (beq_iff_eq.mp h)
                    rw [this] at ho
                    rw [ho] at horch
                    exact absurd horch (by simp)
                simp [hne]
              · intro a _
                rcases h : (a.id == agent.id) with _ | _ <;> simp [h]
            · intro a ha h2
              simp only [cmdName] at ha
              rw [hfind] at ha
              have hae : agent = a := Option.some_inj.mp ha
              rw [← hae] at h2
              exact absurd h2 (by simp [horch])
        · have hres : processAgentCmd db freshId (AgentCmd.update_agent n sp mo mc) =
              (db, false) := by
            simp only [processAgentCmd, htru, Bool.not_true, Bool.false_eq_true, if_false,
              hfind, horch, if_true]
          exact ⟨by rw [hres], fun a ha h2 => hres, by rw [hres]; exact fun h => absurd rfl h⟩
    · have htru' : truthy n = false := by simpa using htru
      have hres : processAgentCmd db freshId (AgentCmd.update_agent n sp mo mc) =
          (db, false) := by
        simp only [processAgentCmd, htru', Bool.not_false, if_true]
      exact ⟨by rw [hres], fun a ha h2 => hres, by rw [hres]; exact fun h => absurd rfl h⟩
  | delete_agent n =>
    by_cases htru : truthy n = true
    · rcases hfind : getAgentByName db (n.getD "") with _ | agent
      · have hres : processAgentCmd db freshId (AgentCmd.delete_agent n) = (db, false) := by
          simp only [processAgentCmd, htru, Bool.not_true, Bool.false_eq_true, if_false,
            hfind]
        exact ⟨by rw [hres], fun a ha h2 => hres, by rw [hres]; exact fun h => absurd rfl h⟩
      · have hmem : agent ∈ db := List.mem_of_find?_eq_some hfind
        rcases horch : agent.is_orchestrator with _ | _
        · have hres : processAgentCmd db freshId (AgentCmd.delete_agent n) =
              (deleteAgentDb db agent.id, true) := by
            simp only [processAgentCmd, htru, Bool.not_true, Bool.false_eq_true, if_false,
              hfind, horch]
          refine ⟨?_, ?_, by rw [hres]; exact fun _ => rfl⟩
          · rw [hres]
            simp only [deleteAgentDb]
            refine filter_filter_sub db ?_
            intro a ha ho
            have hne : (a.id == agent.id) = false := by
              rcases h : (a.id == agent.id) with _ | _
              · rfl
              · have : a = agent := hidinj a ha agent hmem (beq_iff_eq.mp h)
                rw [this] at ho
                rw [ho] at horch
                exact absurd horch (by simp)
            simp [hne]
          · intro a ha h2
            simp only [cmdName] at ha
            rw [hfind] at ha
            have hae : agent = a := Option.some_inj.mp ha
            rw [← hae] at h2
            exact absurd h2 (by simp [horch])
        · have hres : processAgentCmd db freshId (AgentCmd.delete_agent n) = (db, false) := by
            simp only [processAgentCmd, htru, Bool.not_true, Bool.false_eq_true, if_false,
              hfind, horch, if_true]
          exact ⟨by rw [hres], fun a ha h2 => hres, by rw [hres]; exact fun h => absurd rfl h⟩
    · have htru' : truthy n = false := by simpa using htru
      have hres : processAgentCmd db freshId (AgentCmd.delete_agent n) = (db, false) := by
        simp only [processAgentCmd, htru', Bool.not_false, if_true]
      exact ⟨by rw [hres], fun a ha h2 => hres, by rw [hres]; exact fun h => absurd rfl h⟩

/-! ### Claim C4 -/

/-- The drain loop starts a prefix of the pending queue, in FIFO order:
there is a `k` such that the first `k` pending tasks (and no others) moved,
in order, to the running set and the start log. -/
theorem drainPendingFuel_fifo (limit : Nat) :
    ∀ (n : Nat) (s : QState),
    ∃ k, drainPendingFuel limit n s =
      { s with active := s.active ++ (s.pending.take k).map QTask.tok,
               pending := s.pending.drop k,
               started := s.started ++ (s.pending.take k).map QTask.tok } := by
  intro n
  induction n with
  | zero =>
    intro s
    obtain ⟨ac, pe, sh, st, dr⟩ := s
    refine ⟨0, ?_⟩
    simp [drainPendingFuel]
  | succ n ih =>
    intro s
    obtain ⟨ac, pe, sh, st, dr⟩ := s
    rcases pe with _ | ⟨t, rest⟩
    · refine ⟨0, ?_⟩
      simp [drainPendingFuel]
    · simp only [drainPendingFuel]
      by_cases hcap : ac.length < limit
      · simp only [hcap, if_true]
        obtain ⟨k, hk⟩ := ih (startTask ⟨ac, rest, sh, st, dr⟩ t)
        refine ⟨k + 1, ?_⟩
        rw [hk]
        simp [startTask]
      · exact ⟨0, by simp [hcap]⟩

/-- FIFO-prefix form of the full drain. -/
theorem drainPending_fifo (limit : Nat) (s : QState) :
    ∃ k, drainPending limit s =
      { s with active := s.active ++ (s.pending.take k).map QTask.tok,
               pending := s.pending.drop k,
               started := s.started ++ (s.pending.take k).map QTask.tok } :=
  drainPendingFuel_fifo limit s.pending.length s

/-- Draining never pushes the running count over the limit. -/
theorem drainPendingFuel_bound (limit : Nat) :
    ∀ (n : Nat) (s : QState), s.active.length ≤ limit →
      (drainPendingFuel limit n s).active.length ≤ limit := by
  intro n
  induction n with
  | zero => intro s hb; exact hb
  | succ n ih =>
    intro s hb
    obtain ⟨ac, pe, sh, st, dr⟩ := s
    rcases pe with _ | ⟨t, rest⟩
    · exact hb
    · simp only [drainPendingFuel]
      by_cases hcap : ac.length < limit
      · simp only [hcap, if_true]
        refine ih _ ?_
        simp only [startTask]
        simpa using hcap
      · simpa [hcap] using hb

/-- Bound form of the full drain. -/
theorem drainPending_bound (limit : Nat) (s : QState)
    (hb : s.active.length ≤ limit) :
    (drainPending limit s).active.length ≤ limit :=
  drainPendingFuel_bound limit s.pending.length s hb

/-- Tokens seen by a state are preserved (up to permutation) by draining. -/
theorem drainPending_seen_perm (limit : Nat) (s : QState) :
    (qSeen (drainPending limit s)).Perm (qSeen s) := by
  obtain ⟨k, hk⟩ := drainPending_fifo limit s
  rw [hk]
  simp only [qSeen]
  have hTD : (s.pending.take k).map QTask.tok ++ (s.pending.drop k).map QTask.tok
      = s.pending.map QTask.tok := by
    rw [← List.map_append, List.take_append_drop]
  refine List.perm_iff_count.mpr ?_
  intro a
  rw [← hTD]
  simp only [List.count_append]
  omega

/-- One step adds exactly the enqueued token (if the event was an enqueue)
to the seen set, up to permutation. -/
theorem qStep_seen_perm (limit : Nat) (s : QState) (e : QEvent) :
    (qSeen (qStep limit s e)).Perm
      (qSeen s ++ (match e with | QEvent.enq t => [t.tok] | _ => [])) := by
  cases e with
  | enq t =>
    simp only [qStep, enqueue]
    by_cases hshut : s.shuttingDown = true
    · rw [if_pos hshut]
      refine List.perm_iff_count.mpr ?_
      intro a
      simp only [qSeen, List.count_append]
      omega
    · rw [if_neg hshut]
      by_cases hpend : (s.pending.any fun p => decide (p.id = t.id)) = true
      · rw [if_pos hpend]
        refine List.perm_iff_count.mpr ?_
        intro a
        simp only [qSeen, List.count_append]
        omega
      · rw [if_neg hpend]
        by_cases hcap : limit ≤ s.active.length
        · rw [if_pos hcap]
          refine List.perm_iff_count.mpr ?_
          intro a
          simp only [qSeen, List.map_append, List.map_cons, List.map_nil,
            List.count_append]
          omega
        · rw [if_neg hcap]
          simp only [startTask]
          refine List.perm_iff_count.mpr ?_
          intro a
          simp only [qSeen, List.count_append]
          omega
  | fin tok =>
    simp only [qStep, qComplete]
    by_cases hshut : s.shuttingDown = true
    · rw [if_pos hshut]
      simp [qSeen]
    · rw [if_neg hshut]
      refine (drainPending_seen_perm limit _).trans ?_
      simp [qSeen]
  | shutdown =>
    simp only [qStep, qSeen]
    simp

/-- Over a whole trace, the seen set is, up to permutation, the starting
seen set plus the enqueued tokens. -/
theorem qRun_seen_perm (limit : Nat) (events : List QEvent) :
    ∀ s : QState, (qSeen (qRun limit s events)).Perm (qSeen s ++ enqToks events) := by
  induction events with
  | nil => intro s; simp [qRun, enqToks]
  | cons e es ih =>
    intro s
    have h1 : qRun limit s (e :: es) = qRun limit (qStep limit s e) es := rfl
    rw [h1]
    refine (ih (qStep limit s e)).trans ?_
    refine (List.Perm.append_right (enqToks es) (qStep_seen_perm limit s e)).trans ?_
    cases e with
    | enq t =>
      simp only [enqToks, List.append_assoc, List.singleton_append]
      exact List.Perm.refl _
    | fin tok => simp [enqToks]
    | shutdown => simp [enqToks]

/-- The running-count bound is preserved by every step. -/
theorem qStep_bound (limit : Nat) (s : QState) (e : QEvent)
    (hb : s.active.length ≤ limit) : (qStep limit s e).active.length ≤ limit := by
  cases e with
  | enq t =>
    simp only [qStep, enqueue]
    by_cases hshut : s.shuttingDown = true
    · rw [if_pos hshut]
      exact hb
    · rw [if_neg hshut]
      by_cases hpend : (s.pending.any fun p => decide (p.id = t.id)) = true
      · rw [if_pos hpend]
        exact hb
      · rw [if_neg hpend]
        by_cases hcap : limit ≤ s.active.length
        · rw [if_pos hcap]
          exact hb
        · rw [if_neg hcap]
          simp only [startTask]
          have : s.active.length < limit := Nat.lt_of_not_le hcap
          simpa using this
  | fin tok =>
    simp only [qStep, qComplete]
    have herase : (s.active.erase tok).length ≤ limit :=
      le_trans (List.length_erase_le _ _) hb
    by_cases hshut : s.shuttingDown = true
    · rw [if_pos hshut]
      exact herase
    · rw [if_neg hshut]
      exact drainPending_bound limit _ herase
  | shutdown => simpa [qStep] using hb

/-- The bound holds at the end of every trace from the initial state. -/
theorem qRun_bound (limit : Nat) (events : List QEvent) :
    ∀ s : QState, s.active.length ≤ limit →
      (qRun limit s events).active.length ≤ limit := by
  induction events with
  | nil => intro s hb; exact hb
  | cons e es ih => intro s hb; exact ih _ (qStep_bound limit s e hb)

/-- Along a well-formed trace the seen set stays duplicate-free. -/
theorem qRun_seen_nodup (limit : Nat) :
    ∀ (events : List QEvent) (s : QState), (qSeen s).Nodup →
      wfTrace limit s events = true → (qSeen (qRun limit s events)).Nodup := by
  intro events
  induction events with
  | nil => intro s hn _; exact hn
  | cons e es ih =>
    intro s hn hwf
    cases e with
    | enq t =>
      simp only [wfTrace, Bool.and_eq_true] at hwf
      obtain ⟨hfresh, hwf'⟩ := hwf
      have hfresh' : t.tok ∉ qSeen s := by simpa using hfresh
      refine ih _ ?_ hwf'
      have hperm := qStep_seen_perm limit s (QEvent.enq t)
      refine hperm.symm.nodup ?_
      simp only [List.nodup_append]
      refine ⟨hn, by simp, ?_⟩
      intro x hx
      simp only [List.mem_singleton]
      intro hxe
      rw [hxe] at hx
      exact hfresh' hx
    | fin tok =>
      simp only [wfTrace, Bool.and_eq_true] at hwf
      obtain ⟨_, hwf'⟩ := hwf
      refine ih _ ?_ hwf'
      have hperm := qStep_seen_perm limit s (QEvent.fin tok)
      refine hperm.symm.nodup ?_
      simpa using hn
    | shutdown =>
      simp only [wfTrace] at hwf
      refine ih _ ?_ hwf
      have hperm := qStep_seen_perm limit s QEvent.shutdown
      refine hperm.symm.nodup ?_
      simpa using hn

/-- Claim C4: for every well-formed event trace on a fresh queue (each
submission carries a fresh token; completions belong to running tasks):
(i) the number of concurrently running tasks never exceeds the limit — this
holds at the end of every trace, hence at every point of every run;
(ii) no submission is ever started twice; (iii) once the pending queue is
empty, the started and dropped logs together hold exactly the enqueued
tokens — every submission was started exactly once unless it was dropped by
the guards; (iv) a submission whose id is already pending is a no-op that
only logs the drop; and (v) the drain always starts a FIFO prefix of the
pending queue. -/
theorem claim_C4 (limit : Nat) (events : List QEvent)
    (hwf : wfTrace limit qInit events = true) :
    ((qRun limit qInit events).active.length ≤ limit) ∧
    (qRun limit qInit events).started.Nodup ∧
    ((qRun limit qInit events).pending = [] →
      ((qRun limit qInit events).started ++ (qRun limit qInit events).dropped).Perm
        (enqToks events)) ∧
    (∀ (st : QState) (t : QTask), st.shuttingDown = false →
      st.pending.any (fun p => p.id = t.id) = true →
      enqueue limit st t = { st with dropped := st.dropped ++ [t.tok] }) ∧
    (∀ st : QState, ∃ k, drainPending limit st =
      { st with active := st.active ++ (st.pending.take k).map QTask.tok,
                pending := st.pending.drop k,
                started := st.started ++ (st.pending.take k).map QTask.tok }) := by
  have hnodup : (qSeen (qRun limit qInit events)).Nodup :=
    qRun_seen_nodup limit events qInit (by simp [qInit, qSeen]) hwf
  refine ⟨?_, ?_, ?_, ?_, ?_⟩
  · exact qRun_bound limit events qInit (by simp [qInit])
  · have hsub : List.Sublist (qRun limit qInit events).started
        (qSeen (qRun limit qInit events)) := by
      simp only [qSeen, List.append_assoc]
      exact List.sublist_append_left _ _
    exact hnodup.sublist hsub
  · intro hpend
    have hperm := qRun_seen_perm limit events qInit
    rw [show qSeen qInit = [] from rfl] at hperm
    simp only [qSeen, hpend, List.map_nil, List.append_nil, List.nil_append] at hperm
    exact hperm
  · intro st t hshut hpend
    unfold enqueue
    rw [hshut]
    rw [if_neg (by simp : ¬(false = true))]
    rw [if_pos hpend]
  · intro st
    exact drainPending_fifo limit st

/-- Concrete instantiation of `claim_C4`: limit 1, three submissions with
one duplicate id, interleaved with a completion. -/
theorem claim_C4_witness :
    ((qRun 1 qInit
        [QEvent.enq ⟨0, "a"⟩, QEvent.enq ⟨1, "b"⟩, QEvent.enq ⟨2, "b"⟩,
         QEvent.fin 0, QEvent.fin 1]).active.length ≤ 1) ∧
    (qRun 1 qInit
        [QEvent.enq ⟨0, "a"⟩, QEvent.enq ⟨1, "b"⟩, QEvent.enq ⟨2, "b"⟩,
         QEvent.fin 0, QEvent.fin 1]).started.Nodup :=
  ⟨(claim_C4 1 _ (by decide)).1, (claim_C4 1 _ (by decide)).2.1⟩

/-! ### Stream-parser infrastructure (for C3)

Facts about `findSub` (the JS `indexOf`), `extractOne` and the extraction
loop, leading to: the loop commutes with chunking, and on a single
marker-wrapped payload it extracts exactly that payload. -/

/-- A prefix is never longer than the list. -/
theorem isPrefixOf_length_le {α : Type} [BEq α] {pat u : List α}
    (h : pat.isPrefixOf u = true) : pat.length ≤ u.length := by
  induction pat generalizing u with
  | nil => simp
  | cons p ps ih =>
    cases u with
    | nil => simp [List.isPrefixOf] at h
    | cons a as =>
      simp only [List.isPrefixOf, Bool.and_eq_true] at h
      simpa using ih h.2

/-- Appending on the right cannot change a prefix test that already has
enough characters to decide. -/
theorem isPrefixOf_append_left {α : Type} [BEq α] {pat u : List α} (t : List α)
    (h : pat.length ≤ u.length) : pat.isPrefixOf (u ++ t) = pat.isPrefixOf u := by
  induction pat generalizing u with
  | nil => simp [List.isPrefixOf]
  | cons p ps ih =>
    cases u with
    | nil => simp at h
    | cons a as =>
      simp only [List.cons_append, List.isPrefixOf]
      show (p == a && ps.isPrefixOf (as ++ t)) = (p == a && ps.isPrefixOf as)
      rw [ih (by simpa using h)]

/-- A prefix stays a prefix after appending on the right. -/
theorem isPrefixOf_append_of_isPrefixOf {α : Type} [BEq α] {pat u : List α} (t : List α)
    (h : pat.isPrefixOf u = true) : pat.isPrefixOf (u ++ t) = true := by
  rw [isPrefixOf_append_left t (isPrefixOf_length_le h)]
  exact h

/-- A successful `findSub` is an occurrence that fits inside the list. -/
theorem findSub_some_occurs {pat s : List Char} {i : Nat}
    (h : findSub pat s = some i) :
    pat.isPrefixOf (s.drop i) = true ∧ i + pat.length ≤ s.length := by
  induction s generalizing i with
  | nil =>
    simp only [findSub] at h
    rcases hp : pat.isPrefixOf ([] : List Char) with _ | _
    · rw [hp] at h; simp at h
    · rw [hp] at h
      simp only [if_true] at h
      cases h
      constructor
      · simpa using hp
      · simpa using isPrefixOf_length_le hp
  | cons c rest ih =>
    simp only [findSub] at h
    rcases hp : pat.isPrefixOf (c :: rest) with _ | _
    · rw [hp] at h
      simp only [Bool.false_eq_true, if_false, Option.map_eq_some'] at h
      obtain ⟨j, hj, hji⟩ := h
      obtain ⟨h1, h2⟩ := ih hj
      subst hji
      constructor
      · simpa using h1
      · simp only [List.length_cons]
        omega
    · rw [hp] at h
      simp only [if_true] at h
      cases h
      refine ⟨by simpa using hp, ?_⟩
      simpa using isPrefixOf_length_le hp

/-- `findSub` is stable under appending on the right. -/
theorem findSub_append {pat s : List Char} {i : Nat} (t : List Char)
    (h : findSub pat s = some i) : findSub pat (s ++ t) = some i := by
  induction s generalizing i with
  | nil =>
    simp only [findSub] at h
    rcases hp : pat.isPrefixOf ([] : List Char) with _ | _
    · rw [hp] at h; simp at h
    · rw [hp] at h
      simp only [if_true] at h
      cases h
      have hpat : pat = [] := by
        cases pat with
        | nil => rfl
        | cons a l => simp [List.isPrefixOf] at hp
      subst hpat
      cases t with
      | nil => rfl
      | cons a l => simp [findSub, List.isPrefixOf]
  | cons c rest ih =>
    simp only [findSub] at h
    rcases hp : pat.isPrefixOf (c :: rest) with _ | _
    · rw [hp] at h
      simp only [Bool.false_eq_true, if_false, Option.map_eq_some'] at h
      obtain ⟨j, hj, hji⟩ := h
      have hlen : pat.length ≤ (c :: rest).length := by
        have := (findSub_some_occurs hj).2
        simp only [List.length_cons]
        omega
      have hp' : pat.isPrefixOf ((c :: rest) ++ t) = false := by
        rw [isPrefixOf_append_left t hlen]
        exact hp
      simp only [List.cons_append] at hp' ⊢
      simp only [findSub, hp', Bool.false_eq_true, if_false]
      rw [ih hj]
      simp [hji]
    · rw [hp] at h
      simp only [if_true] at h
      cases h
      have hp' : pat.isPrefixOf ((c :: rest) ++ t) = true :=
        isPrefixOf_append_of_isPrefixOf t hp
      simp only [List.cons_append] at hp' ⊢
      simp [findSub, hp']

/-- A failed `findSub` means no occurrence anywhere (for a nonempty
pattern). -/
theorem findSub_none {pat s : List Char} (hpat : pat ≠ [])
    (h : findSub pat s = none) : ∀ j, pat.isPrefixOf (s.drop j) = false := by
  induction s with
  | nil =>
    intro j
    cases pat with
    | nil => exact absurd rfl hpat
    | cons a l => simp [List.isPrefixOf]
  | cons c rest ih =>
    simp only [findSub] at h
    rcases hp : pat.isPrefixOf (c :: rest) with _ | _
    · rw [hp] at h
      simp only [Bool.false_eq_true, if_false, Option.map_eq_none'] at h
      intro j
      cases j with
      | zero => simpa using hp
      | succ j => simpa using ih h j
    · rw [hp] at h
      simp at h

/-- If the pattern occurs at `N` and nowhere earlier, `findSub` finds `N`. -/
theorem findSub_first_at {pat s : List Char} {N : Nat}
    (h1 : pat.isPrefixOf (s.drop N) = true)
    (h2 : ∀ j, j < N → pat.isPrefixOf (s.drop j) = false) :
    findSub pat s = some N := by
  induction s generalizing N with
  | nil =>
    cases N with
    | zero => simp only [findSub]; rw [List.drop_nil] at h1; simp [h1]
    | succ N =>
      exfalso
      have ha := h2 0 (Nat.succ_pos N)
      rw [List.drop_nil] at h1
      rw [List.drop] at ha
      rw [ha] at h1
      exact Bool.false_ne_true h1
  | cons c rest ih =>
    cases N with
    | zero =>
      rw [List.drop] at h1
      simp [findSub, h1]
    | succ N =>
      have h0 : pat.isPrefixOf (c :: rest) = false := by
        have := h2 0 (Nat.succ_pos N)
        simpa using this
      simp only [findSub, h0, Bool.false_eq_true, if_false]
      have hrec : findSub pat rest = some N := by
        refine ih ?_ ?_
        · simpa using h1
        · intro j hj
          have := h2 (j + 1) (by omega)
          simpa using this
      rw [hrec]
      rfl

/-- A prefix occurrence at the front is found at index 0. -/
theorem findSub_zero_of_prefix {pat s : List Char}
    (h : pat.isPrefixOf s = true) : findSub pat s = some 0 := by
  cases s with
  | nil => simp [findSub, h]
  | cons c rest => simp [findSub, h]

/-- Unfolding of `extractOne` when both markers are found. -/
theorem extractOne_eq {buf : List Char} {σ ε : Nat}
    (hs : findSub startMarker buf = some σ)
    (he : findSub endMarker (buf.drop σ) = some ε) :
    extractOne buf =
      some ((buf.drop (σ + startMarker.length)).take (ε - startMarker.length),
            buf.drop (σ + ε + endMarker.length)) := by
  simp only [extractOne, hs, he]

/-- A successful extraction consumes at least the end marker from the
buffer. -/
theorem extractOne_rest_le {buf p r : List Char}
    (h : extractOne buf = some (p, r)) : r.length + 25 ≤ buf.length := by
  simp only [extractOne] at h
  split at h
  · exact absurd h (by simp)
  · rename_i σ hs
    split at h
    · exact absurd h (by simp)
    · rename_i ε he
      simp only [Option.some_inj, Prod.mk.injEq] at h
      obtain ⟨_, hr⟩ := h
      have hεocc := findSub_some_occurs he
      have e25 : endMarker.length = 25 := rfl
      have h1 := hεocc.2
      simp only [List.length_drop] at h1
      subst hr
      simp only [List.length_drop]
      omega

/-- Extraction of the first complete block commutes with appending more
input. -/
theorem extractOne_append {buf p r : List Char} (t : List Char)
    (h : extractOne buf = some (p, r)) :
    extractOne (buf ++ t) = some (p, r ++ t) := by
  simp only [extractOne] at h
  split at h
  · exact absurd h (by simp)
  · rename_i σ hs
    split at h
    · exact absurd h (by simp)
    · rename_i ε he
      simp only [Option.some_inj, Prod.mk.injEq] at h
      obtain ⟨hp, hr⟩ := h
      have hσocc := findSub_some_occurs hs
      have hεocc := findSub_some_occurs he
      have e25 : endMarker.length = 25 := rfl
      have s27 : startMarker.length = 27 := rfl
      have h1 := hεocc.2
      simp only [List.length_drop] at h1
      have hdropσ : (buf ++ t).drop σ = buf.drop σ ++ t := by
        rw [List.drop_append_eq_append_drop, Nat.sub_eq_zero_of_le (by omega),
          List.drop_zero]
      have hs' : findSub startMarker (buf ++ t) = some σ := findSub_append t hs
      have he' : findSub endMarker ((buf ++ t).drop σ) = some ε := by
        rw [hdropσ]
        exact findSub_append t he
      rw [extractOne_eq hs' he']
      simp only [Option.some_inj, Prod.mk.injEq]
      constructor
      · rw [← hp]
        have hd : (buf ++ t).drop (σ + startMarker.length) =
            buf.drop (σ + startMarker.length) ++ t := by
          rw [List.drop_append_eq_append_drop, Nat.sub_eq_zero_of_le (by omega),
            List.drop_zero]
        rw [hd, List.take_append_eq_append_take]
        have hle : ε - startMarker.length ≤
            (buf.drop (σ + startMarker.length)).length := by
          simp only [List.length_drop]
          omega
        rw [Nat.sub_eq_zero_of_le hle]
        simp
      · rw [← hr]
        rw [List.drop_append_eq_append_drop, Nat.sub_eq_zero_of_le (by omega),
          List.drop_zero]

/-- Fuel irrelevance for the extraction loop, once the fuel covers the
buffer length. -/
theorem extractLoopFuel_congr :
    ∀ (n m : Nat) (s : List Char), s.length ≤ n → s.length ≤ m →
      extractLoopFuel n s = extractLoopFuel m s := by
  intro n
  induction n with
  | zero =>
    intro m s hn _
    have hs : s = [] := List.length_eq_zero.mp (Nat.le_zero.mp hn)
    subst hs
    cases m with
    | zero => rfl
    | succ m => rfl
  | succ n ih =>
    intro m s hn hm
    cases m with
    | zero =>
      have hs : s = [] := List.length_eq_zero.mp (Nat.le_zero.mp hm)
      subst hs
      rfl
    | succ m =>
      simp only [extractLoopFuel]
      rcases hx : extractOne s with _ | ⟨p, r⟩
      · rfl
      · have hrest := extractOne_rest_le hx
        have h1 : r.length ≤ n := by omega
        have h2 : r.length ≤ m := by omega
        show (jsTrim p :: (extractLoopFuel n r).1, (extractLoopFuel n r).2) =
          (jsTrim p :: (extractLoopFuel m r).1, (extractLoopFuel m r).2)
        rw [ih m r h1 h2]

/-- One-step unfolding of the completed extraction loop. -/
theorem extractLoop_eq (s : List Char) :
    extractLoop s =
      match extractOne s with
      | none => ([], s)
      | some (p, r) => (jsTrim p :: (extractLoop r).1, (extractLoop r).2) := by
  unfold extractLoop
  rcases hl : s.length with _ | k
  · have hs : s = [] := List.length_eq_zero.mp hl
    subst hs
    rfl
  · simp only [extractLoopFuel]
    rcases hx : extractOne s with _ | ⟨p, r⟩
    · rfl
    · have hrest : r.length + 25 ≤ s.length := extractOne_rest_le hx
      rw [hl] at hrest
      have h1 : r.length ≤ k := by omega
      show (jsTrim p :: (extractLoopFuel k r).1, (extractLoopFuel k r).2) =
        (jsTrim p :: (extractLoopFuel r.length r).1, (extractLoopFuel r.length r).2)
      rw [extractLoopFuel_congr k r.length r h1 le_rfl]

/-- The buffer the loop leaves behind contains no complete block. -/
theorem extractLoop_inert_aux :
    ∀ (n : Nat) (s : List Char), s.length ≤ n →
      extractLoop (extractLoop s).2 = ([], (extractLoop s).2) := by
  intro n
  induction n with
  | zero =>
    intro s hs
    have h0 : s = [] := List.length_eq_zero.mp (Nat.le_zero.mp hs)
    subst h0
    rfl
  | succ n ih =>
    intro s hs
    rw [extractLoop_eq s]
    rcases hx : extractOne s with _ | ⟨p, r⟩
    · simp only
      rw [extractLoop_eq s]
      rw [hx]
    · simp only
      have hrest := extractOne_rest_le hx
      exact ih r (by omega)

/-- The buffer the loop leaves behind contains no complete block. -/
theorem extractLoop_inert (s : List Char) :
    extractLoop (extractLoop s).2 = ([], (extractLoop s).2) :=
  extractLoop_inert_aux s.length s le_rfl

/-- The extraction loop commutes with appending more input: running it on
`s ++ t` extracts the blocks of `s` first, then the blocks of the leftover
of `s` glued to `t`. -/
theorem extractLoop_append_aux :
    ∀ (n : Nat) (s t : List Char), s.length ≤ n →
      extractLoop (s ++ t) =
        ((extractLoop s).1 ++ (extractLoop ((extractLoop s).2 ++ t)).1,
         (extractLoop ((extractLoop s).2 ++ t)).2) := by
  intro n
  induction n with
  | zero =>
    intro s t hs
    have h0 : s = [] := List.length_eq_zero.mp (Nat.le_zero.mp hs)
    subst h0
    simp only [List.nil_append]
    rw [show extractLoop ([] : List Char) = ([], []) from rfl]
    simp
  | succ n ih =>
    intro s t hs
    rcases hx : extractOne s with _ | ⟨p, r⟩
    · have hs_eq : extractLoop s = ([], s) := by rw [extractLoop_eq s, hx]
      rw [hs_eq]
      simp
    · have hs_eq : extractLoop s = (jsTrim p :: (extractLoop r).1, (extractLoop r).2) := by
        rw [extractLoop_eq s, hx]
      have hx' : extractOne (s ++ t) = some (p, r ++ t) := extractOne_append t hx
      have hst : extractLoop (s ++ t) =
          (jsTrim p :: (extractLoop (r ++ t)).1, (extractLoop (r ++ t)).2) := by
        rw [extractLoop_eq (s ++ t), hx']
      have hrest := extractOne_rest_le hx
      have ihr := ih r t (by omega)
      rw [hst, hs_eq, ihr]
      simp

/-- Closed form of `extractLoop_append_aux`. -/
theorem extractLoop_append (s t : List Char) :
    extractLoop (s ++ t) =
      ((extractLoop s).1 ++ (extractLoop ((extractLoop s).2 ++ t)).1,
       (extractLoop ((extractLoop s).2 ++ t)).2) :=
  extractLoop_append_aux s.length s t le_rfl

/-- Folding the chunk feeder over any chunk list is the same as running the
extraction loop once over the concatenation (provided the starting buffer is
inert, as the empty buffer is). -/
theorem foldl_feedChunk_join :
    ∀ (chunks : List (List Char)) (st : StreamState),
      extractLoop st.buffer = ([], st.buffer) →
      chunks.foldl feedChunk st =
        ⟨(extractLoop (st.buffer ++ chunks.flatten)).2,
         st.delivered ++ ((extractLoop (st.buffer ++ chunks.flatten)).1.filterMap parseOutput?)⟩ := by
  intro chunks
  induction chunks with
  | nil =>
    intro st hin
    obtain ⟨b, d⟩ := st
    simp only [List.foldl_nil, List.flatten_nil, List.append_nil]
    simp only [StreamState.buffer] at hin
    rw [hin]
    simp
  | cons c cs ih =>
    intro st hin
    simp only [List.foldl_cons]
    rcases hE : extractLoop (st.buffer ++ c) with ⟨ps, rest⟩
    have hfeed : feedChunk st c =
        ⟨rest, st.delivered ++ ps.filterMap parseOutput?⟩ := by
      simp [feedChunk, hE]
    rw [hfeed]
    have hin' : extractLoop rest = ([], rest) := by
      have := extractLoop_inert (st.buffer ++ c)
      rw [hE] at this
      exact this
    rw [ih _ hin']
    have hcomp := extractLoop_append (st.buffer ++ c) cs.flatten
    rw [hE] at hcomp
    simp only [List.flatten_cons]
    rw [show st.buffer ++ (c ++ cs.flatten) = (st.buffer ++ c) ++ cs.flatten from by
      simp [List.append_assoc]]
    rw [hcomp]
    simp [List.filterMap_append, List.append_assoc]

/-- The delivered outputs of a chunked stream are exactly the parses of the
blocks extracted from the concatenation. -/
theorem runStream_delivered (chunks : List (List Char)) :
    (runStream chunks).delivered =
      (extractLoop chunks.flatten).1.filterMap parseOutput? := by
  unfold runStream
  rw [foldl_feedChunk_join chunks ⟨[], []⟩ rfl]
  simp

/-- The head of any window inside a prefix occurrence belongs to the
pattern. -/
theorem headI_mem_of_prefix {pat u : List Char} (h : pat.isPrefixOf u = true)
    {i : Nat} (hi : i < pat.length) : (u.drop i).headI ∈ pat := by
  obtain ⟨tail, htail⟩ := List.isPrefixOf_iff_prefix.mp h
  rw [← htail, List.drop_append_eq_append_drop, Nat.sub_eq_zero_of_le (le_of_lt hi),
    List.drop_zero]
  rcases hd : pat.drop i with _ | ⟨c, cs⟩
  · exfalso
    have := List.drop_eq_nil_iff.mp hd
    omega
  · have hc : c ∈ pat := by
      have : c ∈ pat.drop i := by rw [hd]; exact List.mem_cons_self c cs
      exact List.mem_of_mem_drop this
    simpa using hc

/-- In a marker-wrapped payload whose JSON body contains no end marker, the
first end-marker occurrence is exactly the real one (the newlines around the
body block any overlapping occurrence, because the end marker contains no
newline). -/
theorem findSub_end_wire (J rest : List Char) (hJ : findSub endMarker J = none) :
    findSub endMarker
        (startMarker ++ ('\n' :: (J ++ ('\n' :: (endMarker ++ rest))))) =
      some (29 + J.length) := by
  have s27 : startMarker.length = 27 := rfl
  have e25 : endMarker.length = 25 := rfl
  have hnl : ('\n' : Char) ∉ endMarker := by decide
  set W := startMarker ++ ('\n' :: (J ++ ('\n' :: (endMarker ++ rest)))) with hW
  have hWlen : W.length = 54 + J.length + rest.length := by
    rw [hW]
    simp only [List.length_append, List.length_cons, s27, e25]
    omega
  have hdrop27 : W.drop 27 = '\n' :: (J ++ ('\n' :: (endMarker ++ rest))) := by
    rw [hW, show (27 : Nat) = startMarker.length from rfl, List.drop_left]
  have hdropMid : W.drop (28 + J.length) = '\n' :: (endMarker ++ rest) := by
    have hW2 : W = (startMarker ++ '\n' :: J) ++ ('\n' :: (endMarker ++ rest)) := by
      rw [hW]
      simp [List.append_assoc]
    have hlen2 : (startMarker ++ '\n' :: J).length = 28 + J.length := by
      simp only [List.length_append, List.length_cons, s27]
      omega
    rw [hW2, ← hlen2, List.drop_left]
  apply findSub_first_at
  · have hdropN : W.drop (29 + J.length) = endMarker ++ rest := by
      have h1 : W.drop (29 + J.length) = (W.drop (28 + J.length)).drop 1 := by
        rw [List.drop_drop]
        congr 1
        omega
      rw [h1, hdropMid]
      rfl
    rw [hdropN]
    exact List.isPrefixOf_iff_prefix.mpr (List.prefix_append _ _)
  · intro j hj
    rcases Nat.lt_or_ge j 3 with h3 | h3
    · have hWj : W.drop j =
          startMarker.drop j ++ ('\n' :: (J ++ ('\n' :: (endMarker ++ rest)))) := by
        rw [hW, List.drop_append_eq_append_drop, Nat.sub_eq_zero_of_le (by omega),
          List.drop_zero]
      rw [hWj]
      rw [isPrefixOf_append_left _ (by simp only [List.length_drop, s27, e25]; omega)]
      interval_cases j <;> decide
    · rcases hp : endMarker.isPrefixOf (W.drop j) with _ | _
      · rfl
      · exfalso
        rcases Nat.lt_or_ge j 28 with h28 | h28
        · -- the window covers W[27] = '\n'
          have hmem : ((W.drop j).drop (27 - j)).headI ∈ endMarker :=
            headI_mem_of_prefix hp (by rw [e25]; omega)
          rw [List.drop_drop] at hmem
          rw [show j + (27 - j) = 27 from by omega] at hmem
          rw [hdrop27] at hmem
          exact hnl (by simpa using hmem)
        · rcases Nat.lt_or_ge (j + 25) (29 + J.length) with hin | hout
          · -- the window sits fully inside the JSON body
            have hWj : W.drop j = J.drop (j - 28) ++ ('\n' :: (endMarker ++ rest)) := by
              have h1 : W.drop j = (W.drop 28).drop (j - 28) := by
                rw [List.drop_drop]
                congr 1
                omega
              have h2 : W.drop 28 = J ++ ('\n' :: (endMarker ++ rest)) := by
                have h3 : W.drop 28 = (W.drop 27).drop 1 := by
                  rw [List.drop_drop]
                rw [h3, hdrop27]
                rfl
              rw [h1, h2, List.drop_append_eq_append_drop,
                show j - 28 - J.length = 0 from by omega, List.drop_zero]
            rw [hWj] at hp
            have hlen3 : endMarker.length ≤ (J.drop (j - 28)).length := by
              rw [e25, List.length_drop]
              omega
            rw [isPrefixOf_append_left _ hlen3] at hp
            have := findSub_none (by decide) hJ (j - 28)
            rw [this] at hp
            exact Bool.false_ne_true hp
          · -- the window covers W[28 + |J|] = '\n'
            have hmem : ((W.drop j).drop (28 + J.length - j)).headI ∈ endMarker :=
              headI_mem_of_prefix hp (by rw [e25]; omega)
            rw [List.drop_drop] at hmem
            rw [show j + (28 + J.length - j) = 28 + J.length from by omega] at hmem
            rw [hdropMid] at hmem
            exact hnl (by simpa using hmem)

/-- The serialized output starts with an opening brace. -/
theorem serializeOutput_head (v : ContainerOutput) :
    ∃ t, serializeOutput v = '\x7b' :: t :=
  ⟨_, rfl⟩

/-- The serialized output ends with a closing brace. -/
theorem serializeOutput_last (v : ContainerOutput) :
    ∃ p, serializeOutput v = p ++ ['\x7d'] :=
  ⟨_, rfl⟩

/-- Trimming the newline-framed payload slice recovers the JSON body. -/
theorem jsTrim_wrap {J : List Char} (hhead : ∃ t, J = '\x7b' :: t)
    (hlast : ∃ p, J = p ++ ['\x7d']) :
    jsTrim ('\n' :: (J ++ ['\n'])) = J := by
  obtain ⟨t, ht⟩ := hhead
  obtain ⟨p, hp⟩ := hlast
  unfold jsTrim
  have h1 : ('\n' :: (J ++ ['\n'])).dropWhile isJsWs = J ++ ['\n'] := by
    rw [List.dropWhile_cons, if_pos (by decide)]
    rw [ht, List.cons_append, List.dropWhile_cons, if_neg (by decide)]
  rw [h1]
  have h2 : (J ++ ['\n']).reverse = '\n' :: J.reverse := by simp
  rw [h2]
  have h3 : ('\n' :: J.reverse).dropWhile isJsWs = J.reverse := by
    rw [List.dropWhile_cons, if_pos (by decide)]
    rw [hp]
    simp only [List.reverse_append, List.reverse_cons, List.reverse_nil,
      List.nil_append, List.singleton_append]
    rw [List.dropWhile_cons, if_neg (by decide)]
  rw [h3]
  simp

/-- On a single marker-wrapped payload whose JSON embeds no end marker, the
extraction loop extracts exactly the JSON body and leaves the trailing
newline in the buffer. -/
theorem extractLoop_wire (v : ContainerOutput)
    (hv : findSub endMarker (serializeOutput v) = none) :
    extractLoop (wireOutput v) = ([serializeOutput v], ['\n']) := by
  have s27 : startMarker.length = 27 := rfl
  have e25 : endMarker.length = 25 := rfl
  set J := serializeOutput v with hJdef
  have hwire_eq : wireOutput v =
      startMarker ++ ('\n' :: (J ++ ('\n' :: (endMarker ++ ['\n'])))) := by
    simp [wireOutput, nlc, List.append_assoc]
  have hfs : findSub startMarker (wireOutput v) = some 0 := by
    apply findSub_zero_of_prefix
    rw [hwire_eq]
    exact List.isPrefixOf_iff_prefix.mpr (List.prefix_append _ _)
  have hfe : findSub endMarker (wireOutput v) = some (29 + J.length) := by
    rw [hwire_eq]
    exact findSub_end_wire _ _ hv
  have hfe' : findSub endMarker ((wireOutput v).drop 0) = some (29 + J.length) := by
    rw [List.drop_zero]
    exact hfe
  have hx := extractOne_eq hfs hfe'
  have hpayload : ((wireOutput v).drop (0 + startMarker.length)).take
      (29 + J.length - startMarker.length) = '\n' :: (J ++ ['\n']) := by
    rw [show 0 + startMarker.length = startMarker.length from by omega]
    rw [hwire_eq, List.drop_left]
    rw [show 29 + J.length - startMarker.length = (J.length + 1) + 1 from by
      rw [s27]; omega]
    rw [List.take_succ_cons]
    rw [List.take_append_eq_append_take]
    rw [List.take_of_length_le (by omega)]
    rw [show J.length + 1 - J.length = 1 from by omega]
    rfl
  have hrest : (wireOutput v).drop (0 + (29 + J.length) + endMarker.length) =
      ['\n'] := by
    have hW2 : wireOutput v =
        (startMarker ++ nlc ++ J ++ nlc ++ endMarker) ++ nlc := by
      simp [wireOutput, List.append_assoc]
    have hlen2 : (startMarker ++ nlc ++ J ++ nlc ++ endMarker).length =
        0 + (29 + J.length) + endMarker.length := by
      simp only [List.length_append, s27, e25, nlc, List.length_cons,
        List.length_nil]
      omega
    rw [hW2, ← hlen2, List.drop_left]
    rfl
  rw [hpayload] at hx
  rw [hrest] at hx
  have htrim : jsTrim ('\n' :: (J ++ ['\n'])) = J :=
    jsTrim_wrap (serializeOutput_head v) (serializeOutput_last v)
  rw [extractLoop_eq (wireOutput v), hx]
  show (jsTrim ('\n' :: (J ++ ['\n'])) :: (extractLoop ['\n']).1,
      (extractLoop ['\n']).2) = ([J], ['\n'])
  rw [htrim]
  rfl

/-! ### JSON round-trip: the host parse inverts the container serialize -/

/-- `unhex?` inverts `hexDigit` on nibble values. -/
theorem unhex_hexDigit : ∀ n, n < 16 → unhex? (hexDigit n) = some n := by
  decide

/-- `parseStringBody` on a `u`-escape whose four digits decode. -/
theorem parseStringBody_u (a b c d : Char) (va vb vc vd : Nat) (t : List Char)
    (h1 : unhex? a = some va) (h2 : unhex? b = some vb)
    (h3 : unhex? c = some vc) (h4 : unhex? d = some vd) :
    parseStringBody ('\\' :: 'u' :: a :: b :: c :: d :: t) =
      (parseStringBody t).map
        (fun p => (Char.ofNat (((va * 16 + vb) * 16 + vc) * 16 + vd) :: p.1, p.2)) := by
  conv_lhs => rw [parseStringBody.eq_def]
  simp [h1, h2, h3, h4]

/-- `parseStringBody` inverts `escString`, consuming through the closing
quote. -/
theorem parseStringBody_escString (cs rest : List Char) :
    parseStringBody (escString cs ++ ('"' :: rest)) = some (cs, rest) := by
  induction cs with
  | nil =>
    unfold parseStringBody
    simp [escString]
  | cons c cs ih =>
    show parseStringBody ((escChar c ++ escString cs) ++ ('"' :: rest)) = _
    rw [List.append_assoc]
    by_cases h1 : c = '"'
    · subst h1
      unfold parseStringBody
      simp [escChar, ih]
    · by_cases h2 : c = '\\'
      · subst h2
        unfold parseStringBody
        simp [escChar, ih]
      · by_cases h3 : c = '\x08'
        · subst h3
          unfold parseStringBody
          simp [escChar, ih]
        · by_cases h4 : c = '\t'
          · subst h4
            unfold parseStringBody
            simp [escChar, ih]
          · by_cases h5 : c = '\n'
            · subst h5
              unfold parseStringBody
              simp [escChar, ih]
            · by_cases h6 : c = '\x0c'
              · subst h6
                unfold parseStringBody
                simp [escChar, ih]
              · by_cases h7 : c = '\x0d'
                · subst h7
                  unfold parseStringBody
                  simp [escChar, ih]
                · by_cases h8 : c.toNat < 32
                  · have hesc : escChar c =
                        ['\\', 'u', '0', '0', hexDigit (c.toNat / 16),
                          hexDigit (c.toNat % 16)] := by
                      unfold escChar
                      rw [if_neg h1, if_neg h2, if_neg h3, if_neg h4, if_neg h5,
                        if_neg h6, if_neg h7, if_pos h8]
                    rw [hesc]
                    simp only [List.cons_append, List.nil_append]
                    rw [parseStringBody_u '0' '0' (hexDigit (c.toNat / 16))
                      (hexDigit (c.toNat % 16)) 0 0 (c.toNat / 16) (c.toNat % 16) _
                      rfl rfl (unhex_hexDigit _ (by omega))
                      (unhex_hexDigit _ (by omega)), ih]
                    rw [show ((0 * 16 + 0) * 16 + c.toNat / 16) * 16 + c.toNat % 16
                        = c.toNat from by omega]
                    rw [Char.ofNat_toNat]
                    rfl
                  · have hesc : escChar c = [c] := by
                      unfold escChar
                      rw [if_neg h1, if_neg h2, if_neg h3, if_neg h4, if_neg h5,
                        if_neg h6, if_neg h7, if_neg h8]
                    rw [hesc]
                    simp only [List.cons_append, List.nil_append]
                    unfold parseStringBody
                    simp [ih, h1, h2]

/-- `expectPrefix` consumes exactly the expected prefix. -/
theorem expectPrefix_append (pre t : List Char) :
    expectPrefix pre (pre ++ t) = some t := by
  unfold expectPrefix
  rw [if_pos (List.isPrefixOf_iff_prefix.mpr (List.prefix_append _ _)), List.drop_left]

/-- `parseStringLit` inverts `jsonString`. -/
theorem parseStringLit_jsonString (s : String) (t : List Char) :
    parseStringLit (jsonString s ++ t) = some (s.data, t) := by
  have h : jsonString s ++ t = '"' :: (escString s.data ++ ('"' :: t)) := by
    simp [jsonString]
  rw [h]
  show parseStringBody (escString s.data ++ ('"' :: t)) = _
  exact parseStringBody_escString _ _

set_option maxHeartbeats 4000000 in
/-- The modelled `JSON.parse` recovers exactly the ContainerOutput the
container serialized: `parseOutput?` inverts `serializeOutput`. -/
theorem parseOutput_serializeOutput (v : ContainerOutput) :
    parseOutput? (serializeOutput v) = some v := by
  obtain ⟨st, res, conv, err⟩ := v
  have hmk : ∀ s : String, String.mk s.data = s := fun _ => rfl
  have hnp : ∀ (r : String) (t : List Char),
      "null".data.isPrefixOf (jsonString r ++ t) = false := fun _ _ => rfl
  have hnullp : ∀ t : List Char,
      "null".data.isPrefixOf ("null".data ++ t) = true := fun _ =>
    List.isPrefixOf_iff_prefix.mpr (List.prefix_append _ _)
  have hdrop4 : ∀ t : List Char, ("null".data ++ t).drop 4 = t := fun _ => rfl
  have hcp : ∀ t : List Char,
      ",\"conversationId\":".data.isPrefixOf (",\"conversationId\":".data ++ t) =
        true := fun _ => List.isPrefixOf_iff_prefix.mpr (List.prefix_append _ _)
  have hdropC : ∀ t : List Char,
      (",\"conversationId\":".data ++ t).drop ",\"conversationId\":".data.length =
        t := fun _ => rfl
  have hep : ∀ t : List Char,
      ",\"error\":".data.isPrefixOf (",\"error\":".data ++ t) = true := fun _ =>
    List.isPrefixOf_iff_prefix.mpr (List.prefix_append _ _)
  have hdropE : ∀ t : List Char,
      (",\"error\":".data ++ t).drop ",\"error\":".data.length = t := fun _ => rfl
  have hce : ∀ t : List Char,
      ",\"conversationId\":".data.isPrefixOf (",\"error\":".data ++ t) = false :=
    fun _ => rfl
  have hcb : ",\"conversationId\":".data.isPrefixOf "\x7d".data = false := rfl
  have heb : ",\"error\":".data.isPrefixOf "\x7d".data = false := rfl
  have hbrace : expectPrefix "\x7d".data "\x7d".data = some [] := rfl
  have hes : ("error".data = "success".data) = False := by simp
  rcases res with _ | r <;> rcases conv with _ | c <;> rcases err with _ | e <;>
      cases st <;>
    simp only [serializeOutput, statusText, List.append_assoc, List.append_nil,
      List.nil_append, parseOutput?, expectPrefix_append, parseStringLit_jsonString,
      Option.bind_eq_bind, Option.some_bind, Option.map_some', hmk, hnp, hnullp,
      hdrop4, hcp, hdropC, hep, hdropE, hce, hcb, heb, hbrace, hes,
      eq_self_iff_true, if_true, if_false, Bool.false_eq_true, List.isEmpty_nil]

/-! ### Claim C3 -/

set_option maxRecDepth 100000

/-- Claim C3 as stated fails: for a ContainerOutput whose `result` string
contains the end-marker text, `JSON.stringify` embeds the marker verbatim in
the payload, the host stream parser cuts the payload at that embedded
marker, the truncated slice fails to parse, and nothing is delivered —
rather than exactly one value equal to the input. -/
theorem claim_C3_counterexample :
    (runStream [wireOutput ⟨OutStatus.success, some "---ASTROBOT_OUTPUT_END---",
        none, none⟩]).delivered = [] ∧
    ([] : List ContainerOutput) ≠
      [⟨OutStatus.success, some "---ASTROBOT_OUTPUT_END---", none, none⟩] := by
  exact ⟨by decide, by simp⟩

/-- Claim C3 (amended): for every ContainerOutput whose serialized JSON does
not itself contain the end marker, writing it with `writeOutput` and feeding
the bytes to the host stream parser — under any partition into chunks —
delivers exactly one parsed value equal to the input. -/
theorem claim_C3 (v : ContainerOutput) (chunks : List (List Char))
    (hv : containsSub endMarker (serializeOutput v) = false)
    (hjoin : chunks.flatten = wireOutput v) :
    (runStream chunks).delivered = [v] := by
  have hnone : findSub endMarker (serializeOutput v) = none := by
    rcases h : findSub endMarker (serializeOutput v) with _ | k
    · rfl
    · rw [containsSub, h] at hv
      simp at hv
  rw [runStream_delivered, hjoin, extractLoop_wire v hnone]
  simp [List.filterMap_cons, parseOutput_serializeOutput]

/-- Witness for claim C3: a concrete output split across two chunks at
offset 40 is delivered intact. -/
theorem claim_C3_witness :
    containsSub endMarker (serializeOutput ⟨OutStatus.success, some "ok",
        some "abc", none⟩) = false ∧
    [(wireOutput ⟨OutStatus.success, some "ok", some "abc", none⟩).take 40,
        (wireOutput ⟨OutStatus.success, some "ok", some "abc", none⟩).drop 40].flatten =
      wireOutput ⟨OutStatus.success, some "ok", some "abc", none⟩ ∧
    (runStream [(wireOutput ⟨OutStatus.success, some "ok", some "abc", none⟩).take 40,
        (wireOutput ⟨OutStatus.success, some "ok", some "abc", none⟩).drop 40]).delivered =
      [⟨OutStatus.success, some "ok", some "abc", none⟩] := by
  refine ⟨by decide, by simp [List.flatten], ?_⟩
  exact claim_C3 _ _ (by decide) (by simp [List.flatten])


/-! ### Claim C2 -/

/-- Claim C2 fails on the conversationId clause: `runContainerAgent` folds
streamed conversationIds with a JS truthiness test, so a streamed output
whose `conversationId` is the empty string — which is non-null — is ignored
rather than carried forward.  Concretely, with one streamed output carrying
`conversationId: ""`, a timed-out run resolves to `success`/`null` with no
conversationId, while the last streamed non-null conversationId is `""`. -/
theorem claim_C2_counterexample :
    resolveRun true true [⟨OutStatus.success, none, some "", none⟩] 137 [] "" 1800000 =
      ⟨OutStatus.success, none, none, none⟩ ∧
    lastNonNullConvId [⟨OutStatus.success, none, some "", none⟩] = some "" ∧
    (some "" : Option String) ≠ none := by
  refine ⟨rfl, rfl, by simp⟩

/-- Claim C2 (amended): for a streaming run (`onOutput` given) killed by the
hard timeout, if at least one marker-delimited ContainerOutput was streamed
the run resolves as `success` with `result: null`, carrying forward the last
streamed non-empty conversationId (JS truthiness: empty-string ids are
skipped like null ones); with zero streamed outputs it resolves as `error` —
regardless of the exit code the container dies with. -/
theorem claim_C2 (streamed : List ContainerOutput) (exitCode : Int)
    (stdout : List Char) (stderr : String) (configTimeout : Nat) :
    (streamed ≠ [] →
      resolveRun true true streamed exitCode stdout stderr configTimeout =
        ⟨OutStatus.success, none, lastTruthyConvId streamed, none⟩) ∧
    (streamed = [] →
      (resolveRun true true streamed exitCode stdout stderr configTimeout).status =
        OutStatus.error) := by
  constructor
  · intro hne
    have hem : streamed.isEmpty = false := by
      cases streamed with
      | nil => exact absurd rfl hne
      | cons a l => rfl
    simp [resolveRun, hem]
  · intro he
    subst he
    simp [resolveRun]

/-- Concrete instantiation of `claim_C2`. -/
theorem claim_C2_witness :
    resolveRun true true
        [⟨OutStatus.success, some "hi", some "c1", none⟩,
         ⟨OutStatus.success, none, none, none⟩] 0 [] "" 1800000 =
      ⟨OutStatus.success, none, some "c1", none⟩ ∧
    (resolveRun true true [] 0 [] "" 1800000).status = OutStatus.error :=
  ⟨((claim_C2 [⟨OutStatus.success, some "hi", some "c1", none⟩,
      ⟨OutStatus.success, none, none, none⟩] 0 [] "" 1800000).1
      (by simp)).trans rfl,
   (claim_C2 [] 0 [] "" 1800000).2 rfl⟩

/-- Concrete instantiation of `claim_C9`: an `update_agent` naming the
orchestrator is rejected without touching the database or the snapshot. -/
theorem claim_C9_witness :
    processAgentCmd
        [⟨"i1", "orchestrator", "p", "m", [], true⟩, ⟨"i2", "coder", "p", "m", [], false⟩]
        "f1" (AgentCmd.update_agent (some "orchestrator") (some "np") none none) =
      ([⟨"i1", "orchestrator", "p", "m", [], true⟩, ⟨"i2", "coder", "p", "m", [], false⟩],
        false) :=
  (claim_C9
      [⟨"i1", "orchestrator", "p", "m", [], true⟩, ⟨"i2", "coder", "p", "m", [], false⟩]
      "f1" (AgentCmd.update_agent (some "orchestrator") (some "np") none none)
      (by decide) (by decide)).2.1
    ⟨"i1", "orchestrator", "p", "m", [], true⟩ (by decide) rfl

end Astrobot
